import Mathlib

/-!
Verification of the tracked-storage core of `ember-local-storage-decorator`
(`src/TrackedStorage.ts`), as a shallow embedding.

Modelling decisions, all derived from the source file:

* A JavaScript runtime value (`Val`) is a tree in which every object/array
  node carries its own `frozen` bit (`Object.freeze` sets the bit); function
  and symbol values are opaque leaves.  JSON documents (`JSON`) are the pure
  trees denoted by valid JSON strings.
* Raw substrate strings are abstracted by their JSON-validity class (`Raw`):
  the empty string (falsy in JS), a valid JSON document, or any other
  (malformed) string.  The source only ever consumes value strings through
  `JSON.parse` and truthiness tests, so this quotient is faithful.
* `JSON.stringify` is `stringifyVal`: it returns `none` (JS `undefined`) for
  a top-level function/symbol/undefined, maps such array elements to JSON
  `null`, and skips such object properties.  It can only throw on cyclic
  values, which an inductive tree cannot represent, so it is total here.
* A `Storage` area is identified by an `AreaId` (0 is `window.localStorage`,
  1 is `window.sessionStorage`); its contents are an association list in
  enumeration order.  The module-level registries `sharedCaches` and
  `sharedManagedKeys`, and the per-storage listener registration, live in a
  single `GState`.  A `TrackedStorage` instance carries only its storage
  area and its namespace (`#storage`/the source's private name for the
  namespace string); `#cache`/`#managedKeys` are references into the
  registry, modelled as lookups by the instance's cache key — faithful
  because the source never replaces a registry entry once created.
* JS `Map.set` updates in place or appends; `Set.add` appends if absent;
  both preserve insertion order.  These are `alSet`/`ksAdd` below.
-/

set_option maxHeartbeats 1000000

namespace TrackedStore

/-- Pure JSON documents: the denotation of a valid JSON string. -/
inductive JSON where
  | null
  | bool (b : Bool)
  | num (n : Int)
  | str (s : String)
  | arr (elems : List JSON)
  | obj (fields : List (String × JSON))

/-- JavaScript runtime values.  Every object/array node records whether it
has been frozen; functions and symbols are opaque leaves identified by a
tag. -/
inductive Val where
  | vNull
  | vBool (b : Bool)
  | vNum (n : Int)
  | vStr (s : String)
  | vArr (frozen : Bool) (elems : List Val)
  | vObj (frozen : Bool) (fields : List (String × Val))
  | vFunc (id : Nat)
  | vSymbol (id : Nat)
  | vUndefined

/-- A raw substrate string, abstracted by its JSON-validity class. -/
inductive Raw where
  | emptyStr
  | wellFormed (j : JSON)
  | otherBad (s : String)

/-- A JavaScript exception thrown during JSON processing. -/
inductive JsError where
  | parseFailed (s : String)

mutual

/-- `JSON.stringify` on a runtime value: `none` is JS `undefined`
(top-level function/symbol/undefined); otherwise the produced document. -/
def stringifyVal : Val → Option JSON
  | .vNull => some .null
  | .vBool b => some (.bool b)
  | .vNum n => some (.num n)
  | .vStr s => some (.str s)
  | .vArr _ xs => some (.arr (stringifyArr xs))
  | .vObj _ fs => some (.obj (stringifyFields fs))
  | .vFunc _ => none
  | .vSymbol _ => none
  | .vUndefined => none

/-- Array elements that stringify to `undefined` become JSON `null`. -/
def stringifyArr : List Val → List JSON
  | [] => []
  | x :: xs => (stringifyVal x).getD .null :: stringifyArr xs

/-- Object properties that stringify to `undefined` are skipped. -/
def stringifyFields : List (String × Val) → List (String × JSON)
  | [] => []
  | (k, x) :: xs =>
    match stringifyVal x with
    | some j => (k, j) :: stringifyFields xs
    | none => stringifyFields xs

end

mutual

/-- `JSON.parse` with the freezing reviver of `jsonParseAndFreeze`: every
object/array node of the result is frozen. -/
def freezeJSON : JSON → Val
  | .null => .vNull
  | .bool b => .vBool b
  | .num n => .vNum n
  | .str s => .vStr s
  | .arr xs => .vArr true (freezeArr xs)
  | .obj fs => .vObj true (freezeFields fs)

def freezeArr : List JSON → List Val
  | [] => []
  | x :: xs => freezeJSON x :: freezeArr xs

def freezeFields : List (String × JSON) → List (String × Val)
  | [] => []
  | (k, x) :: xs => (k, freezeJSON x) :: freezeFields xs

end

/-- `jsonParseAndFreeze` (TrackedStorage.ts lines 4–18): a falsy argument
(`null`, `undefined`, or the empty string) yields `null`; a valid JSON
string parses to a deep-frozen value; any other string makes `JSON.parse`
throw a `SyntaxError`. -/
def jsonParseAndFreeze : Option Raw → Except JsError Val
  | none => .ok .vNull
  | some .emptyStr => .ok .vNull
  | some (.wellFormed j) => .ok (freezeJSON j)
  | some (.otherBad s) => .error (.parseFailed s)

/-- JS strict equality with `null` (`value !== null` tests in the source). -/
def isNullVal : Val → Bool
  | .vNull => true
  | _ => false

mutual

/-- Every object/array node of the tree is frozen.  Function and symbol
objects are never frozen by this library. -/
def isDeepFrozen : Val → Bool
  | .vNull => true
  | .vBool _ => true
  | .vNum _ => true
  | .vStr _ => true
  | .vArr f xs => f && isDeepFrozenArr xs
  | .vObj f fs => f && isDeepFrozenFields fs
  | .vFunc _ => false
  | .vSymbol _ => false
  | .vUndefined => true

def isDeepFrozenArr : List Val → Bool
  | [] => true
  | x :: xs => isDeepFrozen x && isDeepFrozenArr xs

def isDeepFrozenFields : List (String × Val) → Bool
  | [] => true
  | (_, x) :: xs => isDeepFrozen x && isDeepFrozenFields xs

end

mutual

/-- Erase all frozen bits; structural ("deep") equality of JS values is
equality of the erasures. -/
def stripF : Val → Val
  | .vNull => .vNull
  | .vBool b => .vBool b
  | .vNum n => .vNum n
  | .vStr s => .vStr s
  | .vArr _ xs => .vArr false (stripFArr xs)
  | .vObj _ fs => .vObj false (stripFFields fs)
  | .vFunc i => .vFunc i
  | .vSymbol i => .vSymbol i
  | .vUndefined => .vUndefined

def stripFArr : List Val → List Val
  | [] => []
  | x :: xs => stripF x :: stripFArr xs

def stripFFields : List (String × Val) → List (String × Val)
  | [] => []
  | (k, x) :: xs => (k, stripF x) :: stripFFields xs

end

mutual

/-- The value is a plain JSON tree: no function, symbol or undefined
anywhere (so `JSON.stringify` loses nothing on it). -/
def isPureJSON : Val → Bool
  | .vNull => true
  | .vBool _ => true
  | .vNum _ => true
  | .vStr _ => true
  | .vArr _ xs => isPureJSONArr xs
  | .vObj _ fs => isPureJSONFields fs
  | .vFunc _ => false
  | .vSymbol _ => false
  | .vUndefined => false

def isPureJSONArr : List Val → Bool
  | [] => true
  | x :: xs => isPureJSON x && isPureJSONArr xs

def isPureJSONFields : List (String × Val) → Bool
  | [] => true
  | (_, x) :: xs => isPureJSON x && isPureJSONFields xs

end

/-! ### Association-list primitives

JS `Map` and `Set` as insertion-ordered association lists.  `alSet` is
`Map.prototype.set` (update in place or append), `alDelete` is
`Map.prototype.delete`, `ksAdd`/`ksDelete` are `Set.prototype.add`/
`delete`. -/

variable {α β : Type}

def alGet [DecidableEq α] : List (α × β) → α → Option β
  | [], _ => none
  | (k, v) :: rest, key => if k = key then some v else alGet rest key

def alHas [DecidableEq α] (l : List (α × β)) (key : α) : Bool :=
  (alGet l key).isSome

def alSet [DecidableEq α] : List (α × β) → α → β → List (α × β)
  | [], key, v => [(key, v)]
  | (k, w) :: rest, key, v =>
    if k = key then (k, v) :: rest else (k, w) :: alSet rest key v

def alDelete [DecidableEq α] (l : List (α × β)) (key : α) : List (α × β) :=
  l.filter (fun p => p.1 ≠ key)

def ksAdd (s : List String) (key : String) : List String :=
  if key ∈ s then s else s ++ [key]

def ksDelete (s : List String) (key : String) : List String :=
  s.filter (· ≠ key)

/-! ### Global state -/

/-- One storage area per id; 0 is `window.localStorage`, 1 is
`window.sessionStorage`; other ids are further `Storage` objects. -/
abbrev AreaId := Nat

def localStorageId : AreaId := 0

def sessionStorageId : AreaId := 1

/-- Substrate contents of one storage area: keys with their raw value
strings, in enumeration order (`key(i)`/`length` walk this list). -/
abbrev AreaContent := List (String × Raw)

/-- One shared cache: full key ↦ decoded value (a JS `TrackedMap`). -/
abbrev Cache := List (String × Val)

/-- One shared managed-key set (a JS `Set`), in insertion order. -/
abbrev KeySet := List String

/-- The module-level mutable state of TrackedStorage.ts together with the
storage substrate itself: the per-area contents, the `sharedCaches` and
`sharedManagedKeys` registries keyed by cache-key string, and the set of
storage objects with a registered `storage` event listener
(`listenerRegistered`). -/
structure GState where
  areas : List (AreaId × AreaContent)
  sharedCaches : List (String × Cache)
  sharedManagedKeys : List (String × KeySet)
  listenerRegistered : List AreaId

/-- The state before any construction, with an empty substrate. -/
def stEmpty : GState := ⟨[], [], [], []⟩

/-! ### Substrate operations (the Web Storage API itself) -/

def areaContent (st : GState) (a : AreaId) : AreaContent :=
  (alGet st.areas a).getD []

def storageGetItem (st : GState) (a : AreaId) (k : String) : Option Raw :=
  alGet (areaContent st a) k

def storageSetItem (st : GState) (a : AreaId) (k : String) (r : Raw) :
    GState :=
  { st with areas := alSet st.areas a (alSet (areaContent st a) k r) }

def storageRemoveItem (st : GState) (a : AreaId) (k : String) : GState :=
  { st with areas := alSet st.areas a (alDelete (areaContent st a) k) }

/-! ### Registry access

A `TrackedStorage` instance holds direct references `#cache` and
`#managedKeys` into the registries.  The source never replaces a registry
entry after creating it (the constructor only sets the maps when
`!sharedCaches.has(cacheKey)`), so reading the entry through its cache key
is always the same as reading through the captured reference. -/

def cacheOf (st : GState) (ck : String) : Cache :=
  (alGet st.sharedCaches ck).getD []

def managedOf (st : GState) (ck : String) : KeySet :=
  (alGet st.sharedManagedKeys ck).getD []

def setCacheReg (st : GState) (ck : String) (c : Cache) : GState :=
  { st with sharedCaches := alSet st.sharedCaches ck c }

def setManagedReg (st : GState) (ck : String) (m : KeySet) : GState :=
  { st with sharedManagedKeys := alSet st.sharedManagedKeys ck m }

/-! ### TrackedStorage -/

/-- `DEFAULT_PREFIX` (line 20).  The namespace string is called `pfx`
throughout this development. -/
def defaultPfx : String := "__tracked_storage__"

/-- JS `String.prototype.startsWith`: true iff `p` is a prefix of `s`.
Defined over the character lists (rather than core's byte-positions-based
`String.startsWith`) so that proofs and the kernel can evaluate it. -/
def strStartsWith (s p : String) : Bool := p.data.isPrefixOf s.data

/-- `getCacheKey` (lines 29–32):
`${storage === window.localStorage ? 'local' : 'session'}:${prefix}`. -/
def getCacheKey (storage : AreaId) (pfx : String) : String :=
  (if storage = localStorageId then "local" else "session") ++ ":" ++ pfx

/-- A `TrackedStorage` instance: only the two identity fields.  The cache
key and the registry references are recomputed from these (see above). -/
structure Handle where
  storage : AreaId
  pfx : String

def cacheKeyOf (h : Handle) : String := getCacheKey h.storage h.pfx

/-- `#buildKey` (lines 133–135): the full persisted key. -/
def buildKey (pfx key : String) : String := pfx ++ ":" ++ key

/-- `#stripPrefix` (lines 140–143). -/
def stripPfx (pfx key : String) : String :=
  let p := pfx ++ ":"
  if strStartsWith key p then key.drop p.length else key

/-- One iteration of the constructor's "Sync cache with storage" loop
(lines 76–81): a managed key no longer present in the substrate is
dropped from both the cache and the managed set.  (The source deletes from
the cache first; cache writes do not affect the managed set, so the
managed set is read from `st` directly here, and likewise in `scanStep`
and `eventStep` below.) -/
def syncStep (a : AreaId) (ck k : String) (st : GState) : GState :=
  if (storageGetItem st a k).isNone then
    setManagedReg (setCacheReg st ck (alDelete (cacheOf st ck) k)) ck
      (ksDelete (managedOf st ck) k)
  else st

/-- Constructor loop "Sync cache with storage" (lines 75–81), over a
snapshot of the managed keys. -/
def syncLoop (a : AreaId) (ck : String) :
    List String → GState → GState
  | [], st => st
  | k :: ks, st => syncLoop a ck ks (syncStep a ck k st)

/-- Constructor loop "Add any new keys from storage" (lines 84–93): walks
the substrate enumeration and, for every key matching `${pfx}:` that is
not yet managed, parses the raw value into the cache (which may throw a
`SyntaxError`) and marks the key managed.  The loop never mutates the
substrate, so lookups during it see the original contents. -/
def scanStep (ck k : String) (v : Val) (st : GState) : GState :=
  setManagedReg (setCacheReg st ck (alSet (cacheOf st ck) k v)) ck
    (ksAdd (managedOf st ck) k)

def scanLoop (a : AreaId) (pfx ck : String) :
    List (String × Raw) → GState → Except JsError GState
  | [], st => .ok st
  | (k, _) :: rest, st =>
    if strStartsWith k (pfx ++ ":") && !((managedOf st ck).contains k) then
      match jsonParseAndFreeze (storageGetItem st a k) with
      | .error e => .error e
      | .ok v => scanLoop a pfx ck rest (scanStep ck k v st)
    else scanLoop a pfx ck rest st

/-- Constructor lines 62–69: get or create the shared cache and managed
keys for this storage+prefix combination. -/
def createEntry (ck : String) (st : GState) : GState :=
  if alHas st.sharedCaches ck then st
  else
    { st with
      sharedCaches := alSet st.sharedCaches ck []
      sharedManagedKeys := alSet st.sharedManagedKeys ck [] }

/-- Constructor lines 96–98: register the `storage` event listener once
per storage object. -/
def registerListener (a : AreaId) (st : GState) : GState :=
  if a ∈ st.listenerRegistered then st
  else { st with listenerRegistered := st.listenerRegistered ++ [a] }

/-- `constructor(storage, prefix?)` (lines 57–129): resolve or create the
shared registry entry for the cache key, reconcile it against the
substrate (sync then scan), and register the per-storage event listener
once.  Throws if the scan hits a malformed persisted value. -/
def construct (storage : AreaId) (pfxOpt : Option String) (st : GState) :
    Except JsError GState :=
  let pfx := pfxOpt.getD defaultPfx
  let ck := getCacheKey storage pfx
  let st1 := createEntry ck st
  let st2 := syncLoop storage ck (managedOf st1 ck) st1
  match scanLoop storage pfx ck (areaContent st2 storage) st2 with
  | .error e => .error e
  | .ok st3 => .ok (registerListener storage st3)

/-- `getItem` (lines 153–173): cached keys are answered from the cache;
otherwise one substrate read; a missing key yields `null` without caching;
an unexpectedly present key is parsed and cached as a repair step. -/
def getItem (h : Handle) (key : String) (st : GState) :
    Except JsError (Val × GState) :=
  let pk := buildKey h.pfx key
  let c := cacheOf st (cacheKeyOf h)
  if alHas c pk then .ok ((alGet c pk).getD .vNull, st)
  else
    match storageGetItem st h.storage pk with
    | none => .ok (.vNull, st)
    | some raw =>
      match jsonParseAndFreeze (some raw) with
      | .error e => .error e
      | .ok v => .ok (v, setCacheReg st (cacheKeyOf h) (alSet c pk v))

/-- `removeItem` (lines 201–206): delete from cache, managed set and
substrate. -/
def removeItem (h : Handle) (key : String) (st : GState) : GState :=
  let pk := buildKey h.pfx key
  let ck := cacheKeyOf h
  let st1 := setCacheReg st ck (alDelete (cacheOf st ck) pk)
  let st2 := setManagedReg st1 ck (ksDelete (managedOf st1 ck) pk)
  storageRemoveItem st2 h.storage pk

/-- `setItem` (lines 179–196): `undefined`/`null` delegate to
`removeItem`; otherwise `JSON.stringify` the value, cache an independently
parsed-and-frozen copy, mark the key managed, and write the string to the
substrate.  `JSON.stringify` throws only on cyclic values, which `Val`
cannot represent, so the only `Except` path here is provably dead; when it
yields `undefined` (functions, symbols), the substrate write coerces it to
the literal string `"undefined"`. -/
def setItem (h : Handle) (key : String) (value : Val) (st : GState) :
    Except JsError GState :=
  match value with
  | .vUndefined => .ok (removeItem h key st)
  | .vNull => .ok (removeItem h key st)
  | v =>
    let pk := buildKey h.pfx key
    let ck := cacheKeyOf h
    let json := stringifyVal v
    match jsonParseAndFreeze (json.map Raw.wellFormed) with
    | .error e => .error e
    | .ok frozenCopy =>
      let st1 := setCacheReg st ck (alSet (cacheOf st ck) pk frozenCopy)
      let st2 := setManagedReg st1 ck (ksAdd (managedOf st1 ck) pk)
      .ok <| storageSetItem st2 h.storage pk
        (match json with
         | some j => Raw.wellFormed j
         | none => Raw.otherBad "undefined")

/-- `clear` loop (lines 214–216): remove every snapshot key from the
substrate. -/
def clearSubstrateLoop (a : AreaId) : List String → GState → GState
  | [], st => st
  | k :: ks, st => clearSubstrateLoop a ks (storageRemoveItem st a k)

/-- `clear` (lines 211–220): remove all managed keys from the substrate,
then empty both the cache and the managed set. -/
def clear (h : Handle) (st : GState) : GState :=
  let ck := cacheKeyOf h
  let keysToRemove := managedOf st ck
  let st1 := clearSubstrateLoop h.storage keysToRemove st
  let st2 := setCacheReg st1 ck []
  setManagedReg st2 ck []

/-- `key(index)` (lines 226–233): the index-th managed key, unprefixed. -/
def keyAt (h : Handle) (index : Int) (st : GState) : Option String :=
  let m := managedOf st (cacheKeyOf h)
  if index < 0 || index ≥ (m.length : Int) then none
  else
    match m.get? index.toNat with
    | some k => some (stripPfx h.pfx k)
    | none => none

/-- `length` getter (lines 238–240). -/
def lengthOf (h : Handle) (st : GState) : Nat :=
  (managedOf st (cacheKeyOf h)).length

/-- `clearCache` (lines 246–248): empties the cache mapping only; the
managed-key set is left untouched. -/
def clearCache (h : Handle) (st : GState) : GState :=
  setCacheReg st (cacheKeyOf h) []

/-! ### The `storage` event listener -/

/-- A `StorageEvent` as consumed by the listener: `key` and `newValue` may
be null, `storageArea` identifies the origin substrate. -/
structure StorageEvent where
  key : Option String
  newValue : Option Raw
  storageArea : AreaId

/-- The storage-class string computed by the listener (line 104):
`storage === window.localStorage ? 'local:' : 'session:'`. -/
def storageClassOf (a : AreaId) : String :=
  if a = localStorageId then "local:" else "session:"

/-- Listener loop over `sharedManagedKeys.entries()` (lines 107–125): for
every registry entry of the same storage class that currently manages the
event key, parse the new raw value, write it into that entry's cache, and
add or drop the key from that entry's managed set according to whether the
parsed value is `null`. -/
def eventStep (ck k : String) (newValue : Val) (st : GState) : GState :=
  if isNullVal newValue then
    setManagedReg (setCacheReg st ck (alSet (cacheOf st ck) k newValue)) ck
      (ksDelete (managedOf st ck) k)
  else
    setManagedReg (setCacheReg st ck (alSet (cacheOf st ck) k newValue)) ck
      (ksAdd (managedOf st ck) k)

def eventLoop (cls k : String) (raw : Option Raw) :
    List String → GState → Except JsError GState
  | [], st => .ok st
  | ck :: rest, st =>
    if strStartsWith ck cls && (managedOf st ck).contains k then
      match jsonParseAndFreeze raw with
      | .error e => .error e
      | .ok newValue => eventLoop cls k raw rest (eventStep ck k newValue st)
    else eventLoop cls k raw rest st

/-- One listener invocation (lines 100–126), for the listener registered
with storage object `ls`: events with a null key or a different origin
storage object are ignored. -/
def listenerStep (ls : AreaId) (ev : StorageEvent) (st : GState) :
    Except JsError GState :=
  match ev.key with
  | none => .ok st
  | some k =>
    if ev.storageArea ≠ ls then .ok st
    else
      eventLoop (storageClassOf ls) k ev.newValue
        (st.sharedManagedKeys.map Prod.fst) st

/-- Dispatch of one `storage` event to every registered listener (at most
one of which — the one whose storage object is the event's origin — does
anything). -/
def dispatchLoop (ev : StorageEvent) :
    List AreaId → GState → Except JsError GState
  | [], st => .ok st
  | ls :: rest, st =>
    match listenerStep ls ev st with
    | .error e => .error e
    | .ok st' => dispatchLoop ev rest st'

def dispatchStorageEvent (ev : StorageEvent) (st : GState) :
    Except JsError GState :=
  dispatchLoop ev st.listenerRegistered st

/-! ## A model of property mutation

One JS property assignment `target.<e₁>.<…>.<eₙ> = nv` in non-strict mode:
navigate the path's prefix by reads and perform the final assignment on the
node reached; assignment on a frozen object or array is silently ignored
(what `Object.freeze` guarantees).  Replacing a nested node in the tree is
the tree-denotation of mutating it in place. -/

inductive PathE where
  | field (name : String)
  | idx (i : Nat)

/-- The final assignment step, at the node the path navigated to. -/
def writeLast (v : Val) (e : PathE) (nv : Val) : Val :=
  match v, e with
  | .vObj fz fs, .field k =>
    if fz then .vObj fz fs else .vObj fz (alSet fs k nv)
  | .vArr fz xs, .idx i =>
    if fz then .vArr fz xs else .vArr fz (xs.set i nv)
  | v, _ => v

def writeProp : Val → List PathE → Val → Val
  | v, [], _ => v
  | v, [e], nv => writeLast v e nv
  | v, e :: rest, nv =>
    match v, e with
    | .vObj fz fs, .field k =>
      (match alGet fs k with
       | some c => .vObj fz (alSet fs k (writeProp c rest nv))
       | none => .vObj fz fs)
    | .vArr fz xs, .idx i =>
      (match xs[i]? with
       | some c => .vArr fz (xs.set i (writeProp c rest nv))
       | none => .vArr fz xs)
    | v, _ => v

/-- The value `setItem` caches: `jsonParseAndFreeze(JSON.stringify(value))`
— independently decoded from the serialized form, never the input value
itself.  When stringify yields `undefined`, `jsonParseAndFreeze` sees a
falsy argument and produces `null`. -/
def frozenCopyOf (v : Val) : Val :=
  ((stringifyVal v).map freezeJSON).getD .vNull

/-- The raw string `setItem` writes to the substrate: the JSON text, or —
because `Storage.setItem` coerces the JS `undefined` to a string — the
literal string `"undefined"`. -/
def rawWriteOf (v : Val) : Raw :=
  ((stringifyVal v).map Raw.wellFormed).getD (.otherBad "undefined")

/-- The spec's registry-entry invariant: the cache mapping holds exactly
the managed keys. -/
def entryInv (st : GState) (ck : String) : Prop :=
  ∀ k, alHas (cacheOf st ck) k = true ↔ k ∈ managedOf st ck

/-- The registry entry for `ck` is reconciled with storage area `a` and
namespace `pfx`: every managed key is present in the substrate, and every
substrate key matching the namespace is managed.  The constructor's
sync+scan passes establish this; a construction finding it already true is
a no-op. -/
def reconciled (st : GState) (a : AreaId) (pfx ck : String) : Prop :=
  (∀ k, k ∈ managedOf st ck → storageGetItem st a k ≠ none) ∧
  (∀ k r, (k, r) ∈ areaContent st a → strStartsWith k (pfx ++ ":") = true →
    k ∈ managedOf st ck)

/-! ### Concrete states used by counterexamples and witnesses -/

def cHandle : Handle := ⟨localStorageId, "p"⟩

/-- After `new TrackedStorage(window.localStorage, 'p')` in a fresh
process with an empty substrate. -/
def cState1 : GState :=
  (construct localStorageId (some "p") stEmpty).toOption.getD stEmpty

/-- … after `setItem('a', 1)` on that handle. -/
def cState2 : GState :=
  (setItem cHandle "a" (.vNum 1) cState1).toOption.getD stEmpty

/-- After `setItem('a', {x: 1})` on the fresh handle. -/
def cStateObj : GState :=
  (setItem cHandle "a" (.vObj false [("x", .vNum 1)]) cState1).toOption.getD
    stEmpty

/-- After `setItem('f', function(){})` on the `cState2` state. -/
def cStateF : GState :=
  (setItem cHandle "f" (.vFunc 0) cState2).toOption.getD stEmpty

/-- After `setItem('a', 5)` through a handle on a non-local storage area
(id 1) with namespace `q`, starting from the empty state. -/
def cStateS : GState :=
  (setItem ⟨1, "q"⟩ "a" (.vNum 5) stEmpty).toOption.getD stEmpty

/-- `cState1` after another tab wrote `p:z = "3"` directly into the
substrate (no event dispatched yet). -/
def cStateX : GState :=
  storageSetItem cState1 localStorageId "p:z" (.wellFormed (.num 3))

/-- … after `getItem('z')` took its repair path on that state. -/
def cStateX2 : GState :=
  match getItem cHandle "z" cStateX with
  | .ok (_, s) => s
  | .error _ => stEmpty

/-- `cState2` after the storage event `{key: 'p:a', newValue: null}` from
`window.localStorage` was dispatched (the key was removed in another
tab). -/
def cStateE : GState :=
  (dispatchStorageEvent ⟨some "p:a", none, localStorageId⟩
    cState2).toOption.getD stEmpty

/-- A storage event carrying a new value `7` for the managed key `p:a`. -/
def evW : StorageEvent :=
  ⟨some "p:a", some (.wellFormed (.num 7)), localStorageId⟩

/-- `cState2` after dispatching `evW`. -/
def cStateEW : GState :=
  (dispatchStorageEvent evW cState2).toOption.getD stEmpty

/-- A substrate pre-populated with `p:foo = "\"bar\""` before any handle
exists. -/
def stPre : GState :=
  ⟨[(localStorageId, [("p:foo", .wellFormed (.str "bar"))])], [], [], []⟩

/-- The state after the first construction of a handle for
(`window.localStorage`, `p`) on that pre-populated substrate. -/
def cState6 : GState :=
  (construct localStorageId (some "p") stPre).toOption.getD stEmpty

/-! ## Lemmas about the association-list primitives -/

section ALLemmas

variable [DecidableEq α]

@[simp] theorem alGet_nil (k : α) : alGet ([] : List (α × β)) k = none := rfl

theorem alGet_cons (p : α × β) (l : List (α × β)) (k : α) :
    alGet (p :: l) k = if p.1 = k then some p.2 else alGet l k := rfl

@[simp] theorem alGet_alSet_self (l : List (α × β)) (k : α) (v : β) :
    alGet (alSet l k v) k = some v := by
  induction l with
  | nil => simp [alSet, alGet]
  | cons p rest ih =>
    obtain ⟨a, b⟩ := p
    by_cases hak : a = k
    · simp [alSet, hak, alGet]
    · simp [alSet, hak, alGet, ih]

theorem alGet_alSet_ne (l : List (α × β)) (k k' : α) (v : β)
    (h : k' ≠ k) : alGet (alSet l k v) k' = alGet l k' := by
  have h2 : ¬(k = k') := fun e => h e.symm
  induction l with
  | nil => simp [alSet, alGet, h2]
  | cons p rest ih =>
    obtain ⟨a, b⟩ := p
    by_cases hak : a = k
    · subst hak
      simp [alSet, alGet, h2]
    · simp only [alSet, if_neg hak, alGet_cons, ih]

@[simp] theorem alGet_alDelete_self (l : List (α × β)) (k : α) :
    alGet (alDelete l k) k = none := by
  induction l with
  | nil => rfl
  | cons p rest ih =>
    obtain ⟨a, b⟩ := p
    by_cases hak : a = k
    · subst hak
      simpa [alDelete, List.filter_cons] using ih
    · simp only [alDelete, List.filter_cons, decide_not] at ih ⊢
      simp [hak, alGet, ih]

theorem alGet_alDelete_ne (l : List (α × β)) (k k' : α) (h : k' ≠ k) :
    alGet (alDelete l k) k' = alGet l k' := by
  induction l with
  | nil => rfl
  | cons p rest ih =>
    obtain ⟨a, b⟩ := p
    by_cases hak : a = k
    · subst hak
      have h2 : ¬(a = k') := fun e => h e.symm
      simp only [alDelete, List.filter_cons, decide_not] at ih ⊢
      simpa [alGet, h2] using ih
    · simp only [alDelete, List.filter_cons, decide_not] at ih ⊢
      simp [hak, alGet, ih]

theorem mem_ksAdd (s : List String) (k k' : String) :
    k' ∈ ksAdd s k ↔ k' ∈ s ∨ k' = k := by
  unfold ksAdd
  by_cases hk : k ∈ s
  · simp only [if_pos hk]
    constructor
    · exact .inl
    · rintro (h | rfl)
      · exact h
      · exact hk
  · simp [if_neg hk]

@[simp] theorem mem_ksDelete (s : List String) (k k' : String) :
    k' ∈ ksDelete s k ↔ k' ∈ s ∧ k' ≠ k := by
  simp [ksDelete]

@[simp] theorem self_mem_ksAdd (s : List String) (k : String) :
    k ∈ ksAdd s k := by
  rw [mem_ksAdd]
  exact .inr rfl

@[simp] theorem self_not_mem_ksDelete (s : List String) (k : String) :
    k ∉ ksDelete s k := by
  simp

end ALLemmas

/-! ## Lemmas about state accessors -/

@[simp] theorem areas_setCacheReg (st : GState) (ck : String) (c : Cache) :
    (setCacheReg st ck c).areas = st.areas := rfl

@[simp] theorem areas_setManagedReg (st : GState) (ck : String)
    (m : KeySet) : (setManagedReg st ck m).areas = st.areas := rfl

@[simp] theorem listeners_setCacheReg (st : GState) (ck : String)
    (c : Cache) :
    (setCacheReg st ck c).listenerRegistered = st.listenerRegistered := rfl

@[simp] theorem listeners_setManagedReg (st : GState) (ck : String)
    (m : KeySet) :
    (setManagedReg st ck m).listenerRegistered = st.listenerRegistered := rfl

@[simp] theorem cacheOf_setCacheReg_self (st : GState) (ck : String)
    (c : Cache) : cacheOf (setCacheReg st ck c) ck = c := by
  simp [cacheOf, setCacheReg]

theorem cacheOf_setCacheReg_ne (st : GState) (ck ck' : String) (c : Cache)
    (h : ck' ≠ ck) : cacheOf (setCacheReg st ck c) ck' = cacheOf st ck' := by
  simp [cacheOf, setCacheReg, alGet_alSet_ne _ _ _ _ h]

@[simp] theorem cacheOf_setManagedReg (st : GState) (ck ck' : String)
    (m : KeySet) : cacheOf (setManagedReg st ck m) ck' = cacheOf st ck' := rfl

@[simp] theorem managedOf_setManagedReg_self (st : GState) (ck : String)
    (m : KeySet) : managedOf (setManagedReg st ck m) ck = m := by
  simp [managedOf, setManagedReg]

theorem managedOf_setManagedReg_ne (st : GState) (ck ck' : String)
    (m : KeySet) (h : ck' ≠ ck) :
    managedOf (setManagedReg st ck m) ck' = managedOf st ck' := by
  simp [managedOf, setManagedReg, alGet_alSet_ne _ _ _ _ h]

@[simp] theorem managedOf_setCacheReg (st : GState) (ck ck' : String)
    (c : Cache) : managedOf (setCacheReg st ck c) ck' = managedOf st ck' :=
  rfl

@[simp] theorem cacheOf_storageSetItem (st : GState) (a : AreaId)
    (k : String) (r : Raw) (ck : String) :
    cacheOf (storageSetItem st a k r) ck = cacheOf st ck := rfl

@[simp] theorem managedOf_storageSetItem (st : GState) (a : AreaId)
    (k : String) (r : Raw) (ck : String) :
    managedOf (storageSetItem st a k r) ck = managedOf st ck := rfl

@[simp] theorem cacheOf_storageRemoveItem (st : GState) (a : AreaId)
    (k : String) (ck : String) :
    cacheOf (storageRemoveItem st a k) ck = cacheOf st ck := rfl

@[simp] theorem managedOf_storageRemoveItem (st : GState) (a : AreaId)
    (k : String) (ck : String) :
    managedOf (storageRemoveItem st a k) ck = managedOf st ck := rfl

@[simp] theorem storageGetItem_setCacheReg (st : GState) (ck : String)
    (c : Cache) (a : AreaId) (k : String) :
    storageGetItem (setCacheReg st ck c) a k = storageGetItem st a k := rfl

@[simp] theorem storageGetItem_setManagedReg (st : GState) (ck : String)
    (m : KeySet) (a : AreaId) (k : String) :
    storageGetItem (setManagedReg st ck m) a k = storageGetItem st a k := rfl

@[simp] theorem storageGetItem_storageSetItem_self (st : GState)
    (a : AreaId) (k : String) (r : Raw) :
    storageGetItem (storageSetItem st a k r) a k = some r := by
  simp [storageGetItem, storageSetItem, areaContent]

@[simp] theorem storageGetItem_storageRemoveItem_self (st : GState)
    (a : AreaId) (k : String) :
    storageGetItem (storageRemoveItem st a k) a k = none := by
  simp [storageGetItem, storageRemoveItem, areaContent]

/-! ## Serialization lemmas -/

mutual

/-- Everything produced by the freezing reviver is deep-frozen. -/
theorem freezeJSON_deepFrozen : ∀ j : JSON,
    isDeepFrozen (freezeJSON j) = true
  | .null => rfl
  | .bool _ => rfl
  | .num _ => rfl
  | .str _ => rfl
  | .arr xs => by simp [freezeJSON, isDeepFrozen, freezeArr_deepFrozen xs]
  | .obj fs => by simp [freezeJSON, isDeepFrozen, freezeFields_deepFrozen fs]

theorem freezeArr_deepFrozen : ∀ xs : List JSON,
    isDeepFrozenArr (freezeArr xs) = true
  | [] => rfl
  | x :: xs => by
    simp [freezeArr, isDeepFrozenArr, freezeJSON_deepFrozen x,
      freezeArr_deepFrozen xs]

theorem freezeFields_deepFrozen : ∀ fs : List (String × JSON),
    isDeepFrozenFields (freezeFields fs) = true
  | [] => rfl
  | (_, x) :: xs => by
    simp [freezeFields, isDeepFrozenFields, freezeJSON_deepFrozen x,
      freezeFields_deepFrozen xs]

end

mutual

/-- Stringify/parse round trip: a value containing no function, symbol or
undefined serializes to a document whose frozen parse is structurally equal
to the original. -/
theorem pureRoundtripVal : ∀ v : Val, isPureJSON v = true →
    ∃ j, stringifyVal v = some j ∧ stripF (freezeJSON j) = stripF v
  | .vNull, _ => ⟨.null, rfl, rfl⟩
  | .vBool b, _ => ⟨.bool b, rfl, rfl⟩
  | .vNum n, _ => ⟨.num n, rfl, rfl⟩
  | .vStr s, _ => ⟨.str s, rfl, rfl⟩
  | .vArr _ xs, h => by
    have hx := pureRoundtripArr xs (by simpa [isPureJSON] using h)
    exact ⟨.arr (stringifyArr xs), rfl, by simp [freezeJSON, stripF, hx]⟩
  | .vObj _ fs, h => by
    have hx := pureRoundtripFields fs (by simpa [isPureJSON] using h)
    exact ⟨.obj (stringifyFields fs), rfl, by simp [freezeJSON, stripF, hx]⟩

theorem pureRoundtripArr : ∀ xs : List Val, isPureJSONArr xs = true →
    stripFArr (freezeArr (stringifyArr xs)) = stripFArr xs
  | [], _ => rfl
  | x :: xs, h => by
    have h12 : isPureJSON x = true ∧ isPureJSONArr xs = true := by
      simpa [isPureJSONArr, Bool.and_eq_true] using h
    obtain ⟨j, hj, hs⟩ := pureRoundtripVal x h12.1
    have ih := pureRoundtripArr xs h12.2
    simp [stringifyArr, hj, freezeArr, stripFArr, hs, ih]

theorem pureRoundtripFields : ∀ fs : List (String × Val),
    isPureJSONFields fs = true →
    stripFFields (freezeFields (stringifyFields fs)) = stripFFields fs
  | [], _ => rfl
  | (k, x) :: xs, h => by
    have h12 : isPureJSON x = true ∧ isPureJSONFields xs = true := by
      simpa [isPureJSONFields, Bool.and_eq_true] using h
    obtain ⟨j, hj, hs⟩ := pureRoundtripVal x h12.1
    have ih := pureRoundtripFields xs h12.2
    simp [stringifyFields, hj, freezeFields, stripFFields, hs, ih]

end

/-- A deep-frozen value is never structurally identical to a value with an
unfrozen node, because the frozen bits are part of the value. -/
theorem deepFrozen_ne_of_not_deepFrozen {v w : Val}
    (hv : isDeepFrozen v = false) (hw : isDeepFrozen w = true) : w ≠ v := by
  intro e
  rw [e, hv] at hw
  exact Bool.false_ne_true hw

/-- `Map.set` with a value already present at the key leaves the map
unchanged. -/
theorem alSet_self_of_get [DecidableEq α] :
    ∀ (l : List (α × β)) (k : α) (v : β), alGet l k = some v →
      alSet l k v = l
  | [], _, _, h => by simp [alGet] at h
  | (a, b) :: rest, k, v, h => by
    by_cases hak : a = k
    · subst hak
      have hb : b = v := by simpa [alGet] using h
      simp [alSet, hb]
    · simp only [alGet, if_neg hak] at h
      simp [alSet, hak, alSet_self_of_get rest k v h]

/-- `List.set` with the element already at the index leaves the list
unchanged. -/
theorem listSet_self_of_get : ∀ (l : List γ) (i : Nat) (c : γ),
    l[i]? = some c → l.set i c = l
  | [], _, _, h => by simp at h
  | x :: xs, 0, c, h => by
    simp at h
    simp [h]
  | x :: xs, i + 1, c, h => by
    simp at h
    simp [listSet_self_of_get xs i c h]

/-- Every value reachable by one field read from a deep-frozen object is
deep-frozen. -/
theorem deepFrozenFields_get : ∀ (fs : List (String × Val)) (k : String)
    (c : Val), isDeepFrozenFields fs = true → alGet fs k = some c →
    isDeepFrozen c = true
  | [], _, _, _, h => by simp [alGet] at h
  | (a, b) :: rest, k, c, hf, h => by
    have h12 : isDeepFrozen b = true ∧ isDeepFrozenFields rest = true := by
      simpa [isDeepFrozenFields, Bool.and_eq_true] using hf
    by_cases hak : a = k
    · simp only [alGet, if_pos hak, Option.some.injEq] at h
      exact h ▸ h12.1
    · simp only [alGet, if_neg hak] at h
      exact deepFrozenFields_get rest k c h12.2 h

/-- Every element of a deep-frozen array is deep-frozen. -/
theorem deepFrozenArr_get : ∀ (xs : List Val) (i : Nat) (c : Val),
    isDeepFrozenArr xs = true → xs[i]? = some c →
    isDeepFrozen c = true
  | [], _, _, _, h => by simp at h
  | x :: xs, 0, c, hf, h => by
    have h12 : isDeepFrozen x = true ∧ isDeepFrozenArr xs = true := by
      simpa [isDeepFrozenArr, Bool.and_eq_true] using hf
    simp at h
    exact h ▸ h12.1
  | x :: xs, i + 1, c, hf, h => by
    have h12 : isDeepFrozen x = true ∧ isDeepFrozenArr xs = true := by
      simpa [isDeepFrozenArr, Bool.and_eq_true] using hf
    simp at h
    exact deepFrozenArr_get xs i c h12.2 h

/-- Attempting any property assignment on a deep-frozen value has no
effect. -/
theorem writeProp_deepFrozen : ∀ (p : List PathE) (v nv : Val),
    isDeepFrozen v = true → writeProp v p nv = v := by
  intro p
  induction p with
  | nil => intro v nv _; cases v <;> rfl
  | cons e rest ih =>
    intro v nv hv
    cases rest with
    | nil =>
      cases e <;> cases v <;>
        simp_all [writeProp, writeLast, isDeepFrozen, Bool.and_eq_true]
    | cons e2 rest2 =>
      cases e with
      | field k =>
        cases v <;> try rfl
        case vObj fz fs =>
          have h12 : fz = true ∧ isDeepFrozenFields fs = true := by
            simpa [isDeepFrozen, Bool.and_eq_true] using hv
          show (match alGet fs k with
            | some c =>
              Val.vObj fz (alSet fs k (writeProp c (e2 :: rest2) nv))
            | none => Val.vObj fz fs) = Val.vObj fz fs
          cases hc : alGet fs k with
          | none => rfl
          | some c =>
            have hcf := deepFrozenFields_get fs k c h12.2 hc
            simp [ih c nv hcf, alSet_self_of_get fs k c hc]
      | idx i =>
        cases v <;> try rfl
        case vArr fz xs =>
          have h12 : fz = true ∧ isDeepFrozenArr xs = true := by
            simpa [isDeepFrozen, Bool.and_eq_true] using hv
          show (match xs[i]? with
            | some c => Val.vArr fz (xs.set i (writeProp c (e2 :: rest2) nv))
            | none => Val.vArr fz xs) = Val.vArr fz xs
          cases hc : xs[i]? with
          | none => rfl
          | some c =>
            have hcf := deepFrozenArr_get xs i c h12.2 hc
            simp [ih c nv hcf, listSet_self_of_get xs i c hc]

/-! ## Characterization of the public operations -/

theorem frozenCopyOf_deepFrozen (v : Val) :
    isDeepFrozen (frozenCopyOf v) = true := by
  unfold frozenCopyOf
  cases hs : stringifyVal v <;> simp [freezeJSON_deepFrozen, isDeepFrozen]

theorem stripF_frozenCopyOf (v : Val) (hp : isPureJSON v = true) :
    stripF (frozenCopyOf v) = stripF v := by
  obtain ⟨j, hj, hsf⟩ := pureRoundtripVal v hp
  simp [frozenCopyOf, hj, hsf]

/-- `setItem` on a non-null, non-undefined value: the exact state it
produces. -/
theorem setItem_ok (h : Handle) (key : String) (v : Val) (st : GState)
    (h1 : v ≠ .vNull) (h2 : v ≠ .vUndefined) :
    setItem h key v st = .ok (storageSetItem
      (setManagedReg
        (setCacheReg st (cacheKeyOf h)
          (alSet (cacheOf st (cacheKeyOf h)) (buildKey h.pfx key)
            (frozenCopyOf v)))
        (cacheKeyOf h)
        (ksAdd (managedOf st (cacheKeyOf h)) (buildKey h.pfx key)))
      h.storage (buildKey h.pfx key) (rawWriteOf v)) := by
  cases v <;> try (first | exact absurd rfl h1 | exact absurd rfl h2)
  all_goals
    simp [setItem, frozenCopyOf, rawWriteOf, stringifyVal, jsonParseAndFreeze]

theorem getItem_cache_hit (h : Handle) (key : String) (st : GState)
    (w : Val)
    (hw : alGet (cacheOf st (cacheKeyOf h)) (buildKey h.pfx key) = some w) :
    getItem h key st = .ok (w, st) := by
  simp [getItem, alHas, hw]

/-- What a completed `setItem` of a non-null value leaves behind: the
frozen copy in the cache, the key managed, the serialized string in the
substrate, and a cache-hit `getItem`. -/
theorem setItem_effects (h : Handle) (key : String) (v : Val)
    (st st' : GState) (h1 : v ≠ .vNull) (h2 : v ≠ .vUndefined)
    (hs : setItem h key v st = .ok st') :
    alGet (cacheOf st' (cacheKeyOf h)) (buildKey h.pfx key) =
      some (frozenCopyOf v) ∧
    buildKey h.pfx key ∈ managedOf st' (cacheKeyOf h) ∧
    storageGetItem st' h.storage (buildKey h.pfx key) =
      some (rawWriteOf v) ∧
    getItem h key st' = .ok (frozenCopyOf v, st') := by
  rw [setItem_ok h key v st h1 h2] at hs
  have hst : st' = storageSetItem
      (setManagedReg
        (setCacheReg st (cacheKeyOf h)
          (alSet (cacheOf st (cacheKeyOf h)) (buildKey h.pfx key)
            (frozenCopyOf v)))
        (cacheKeyOf h)
        (ksAdd (managedOf st (cacheKeyOf h)) (buildKey h.pfx key)))
      h.storage (buildKey h.pfx key) (rawWriteOf v) :=
    (Except.ok.inj hs).symm
  subst hst
  have hc : alGet (cacheOf (storageSetItem
      (setManagedReg
        (setCacheReg st (cacheKeyOf h)
          (alSet (cacheOf st (cacheKeyOf h)) (buildKey h.pfx key)
            (frozenCopyOf v)))
        (cacheKeyOf h)
        (ksAdd (managedOf st (cacheKeyOf h)) (buildKey h.pfx key)))
      h.storage (buildKey h.pfx key) (rawWriteOf v)) (cacheKeyOf h))
      (buildKey h.pfx key) = some (frozenCopyOf v) := by
    simp
  refine ⟨hc, ?_, ?_, getItem_cache_hit _ _ _ _ hc⟩
  · simp
  · simp

/-- What `removeItem` leaves behind: the key gone from cache, managed set
and substrate, and a `null` answer from `getItem` with no state change. -/
theorem removeItem_effects (h : Handle) (key : String) (st : GState) :
    getItem h key (removeItem h key st) =
      .ok (.vNull, removeItem h key st) ∧
    alHas (cacheOf (removeItem h key st) (cacheKeyOf h))
      (buildKey h.pfx key) = false ∧
    buildKey h.pfx key ∉ managedOf (removeItem h key st) (cacheKeyOf h) ∧
    storageGetItem (removeItem h key st) h.storage (buildKey h.pfx key) =
      none := by
  have hc : alHas (cacheOf (removeItem h key st) (cacheKeyOf h))
      (buildKey h.pfx key) = false := by
    simp [removeItem, alHas]
  have hsg : storageGetItem (removeItem h key st) h.storage
      (buildKey h.pfx key) = none := by
    simp [removeItem]
  refine ⟨?_, hc, ?_, hsg⟩
  · simp [getItem, hc, hsg]
  · simp [removeItem]

/-! ## Claim theorems -/

/-- C3: after `setItem(k, v)` with a JSON-serializable `v`, `getItem(k)`
returns a value structurally deep-equal to `v` whose every object/array
node is frozen, and any attempted property mutation of the returned value
leaves it unchanged, so subsequent `getItem(k)` calls are unaffected. -/
theorem c3_roundtrip_frozen (h : Handle) (key : String) (v : Val)
    (st st' : GState) (hp : isPureJSON v = true)
    (hs : setItem h key v st = .ok st') :
    ∃ w, getItem h key st' = .ok (w, st') ∧ stripF w = stripF v ∧
      isDeepFrozen w = true ∧
      ∀ (p : List PathE) (nv : Val), writeProp w p nv = w := by
  by_cases hv : v = .vNull
  · subst hv
    have hst : removeItem h key st = st' := by simpa [setItem] using hs
    subst hst
    obtain ⟨hg, -, -, -⟩ := removeItem_effects h key st
    exact ⟨.vNull, hg, rfl, rfl,
      fun p nv => writeProp_deepFrozen p _ nv rfl⟩
  · have hu : v ≠ .vUndefined := by
      rintro rfl
      simp [isPureJSON] at hp
    obtain ⟨-, -, -, hg⟩ := setItem_effects h key v st st' hv hu hs
    exact ⟨frozenCopyOf v, hg, stripF_frozenCopyOf v hp,
      frozenCopyOf_deepFrozen v,
      fun p nv => writeProp_deepFrozen p _ nv (frozenCopyOf_deepFrozen v)⟩

theorem c3_roundtrip_frozen_witness :
    isPureJSON (Val.vObj false [("x", .vNum 1)]) = true ∧
    ∃ w, getItem cHandle "a" cStateObj = .ok (w, cStateObj) ∧
      stripF w = stripF (Val.vObj false [("x", .vNum 1)]) ∧
      isDeepFrozen w = true ∧
      ∀ (p : List PathE) (nv : Val), writeProp w p nv = w :=
  ⟨rfl, c3_roundtrip_frozen cHandle "a" (Val.vObj false [("x", .vNum 1)])
    cState1 cStateObj rfl rfl⟩

/-- C4: `setItem(k, null)` and `setItem(k, undefined)` behave exactly as
`removeItem(k)`: afterwards `getItem(k)` is `null`, the prefixed key is
absent from the cache and the managed set, and gone from the substrate. -/
theorem c4_null_undefined_remove (h : Handle) (key : String)
    (st : GState) :
    setItem h key .vNull st = .ok (removeItem h key st) ∧
    setItem h key .vUndefined st = .ok (removeItem h key st) ∧
    getItem h key (removeItem h key st) =
      .ok (.vNull, removeItem h key st) ∧
    alHas (cacheOf (removeItem h key st) (cacheKeyOf h))
      (buildKey h.pfx key) = false ∧
    buildKey h.pfx key ∉ managedOf (removeItem h key st) (cacheKeyOf h) ∧
    storageGetItem (removeItem h key st) h.storage (buildKey h.pfx key) =
      none := by
  obtain ⟨hg, hc, hm, hsg⟩ := removeItem_effects h key st
  exact ⟨rfl, rfl, hg, hc, hm, hsg⟩

/-- C7 counterexample: `setItem` of a function value does NOT throw — it
completes, caching `null` for the key and writing the literal string
`"undefined"` into the substrate. -/
theorem c7_counterexample :
    setItem cHandle "f" (.vFunc 0) cState2 = .ok cStateF ∧
    alGet (cacheOf cStateF (cacheKeyOf cHandle)) "p:f" = some .vNull ∧
    "p:f" ∈ managedOf cStateF (cacheKeyOf cHandle) ∧
    storageGetItem cStateF localStorageId "p:f" =
      some (.otherBad "undefined") :=
  ⟨rfl, rfl, by decide, rfl⟩

/-- C7 amended: only cyclic values (not representable as value trees) make
`JSON.stringify` throw.  A function or symbol value does not throw:
stringify yields `undefined`, so the cache records `null`, the key becomes
managed, and the substrate stores the literal string `"undefined"`. -/
theorem c7_amended (h : Handle) (key : String) (st : GState) (i : Nat) :
    (∃ st', setItem h key (.vFunc i) st = .ok st' ∧
      alGet (cacheOf st' (cacheKeyOf h)) (buildKey h.pfx key) =
        some .vNull ∧
      buildKey h.pfx key ∈ managedOf st' (cacheKeyOf h) ∧
      storageGetItem st' h.storage (buildKey h.pfx key) =
        some (.otherBad "undefined")) ∧
    (∃ st', setItem h key (.vSymbol i) st = .ok st' ∧
      alGet (cacheOf st' (cacheKeyOf h)) (buildKey h.pfx key) =
        some .vNull ∧
      buildKey h.pfx key ∈ managedOf st' (cacheKeyOf h) ∧
      storageGetItem st' h.storage (buildKey h.pfx key) =
        some (.otherBad "undefined")) := by
  constructor
  · have hs := setItem_ok h key (.vFunc i) st
      (fun e => Val.noConfusion e) (fun e => Val.noConfusion e)
    obtain ⟨hc, hm, hsg, -⟩ := setItem_effects h key (.vFunc i) st _
      (fun e => Val.noConfusion e) (fun e => Val.noConfusion e) hs
    refine ⟨_, hs, ?_, hm, ?_⟩
    · simp [frozenCopyOf, stringifyVal]
    · simp [rawWriteOf, stringifyVal]
  · have hs := setItem_ok h key (.vSymbol i) st
      (fun e => Val.noConfusion e) (fun e => Val.noConfusion e)
    obtain ⟨hc, hm, hsg, -⟩ := setItem_effects h key (.vSymbol i) st _
      (fun e => Val.noConfusion e) (fun e => Val.noConfusion e) hs
    refine ⟨_, hs, ?_, hm, ?_⟩
    · simp [frozenCopyOf, stringifyVal]
    · simp [rawWriteOf, stringifyVal]

/-- C8 counterexample: the decode step maps the empty string — not valid
JSON — to `null` silently instead of failing with a decode error. -/
theorem c8_counterexample :
    jsonParseAndFreeze (some .emptyStr) = .ok .vNull ∧
    ¬∃ e, jsonParseAndFreeze (some .emptyStr) = .error e := by
  refine ⟨rfl, ?_⟩
  rintro ⟨e, he⟩
  simp [jsonParseAndFreeze] at he

/-- C8 amended: decode yields `null` for null input AND for the empty
string (both are falsy in JS); every other string that is not valid JSON
throws a `SyntaxError`; valid JSON parses to the frozen value. -/
theorem c8_amended :
    jsonParseAndFreeze none = .ok .vNull ∧
    jsonParseAndFreeze (some .emptyStr) = .ok .vNull ∧
    (∀ s, jsonParseAndFreeze (some (.otherBad s)) =
      .error (.parseFailed s)) ∧
    (∀ j, jsonParseAndFreeze (some (.wellFormed j)) =
      .ok (freezeJSON j)) :=
  ⟨rfl, rfl, fun _ => rfl, fun _ => rfl⟩

/-- C9: `setItem` stores an independently decoded copy, never the caller's
value: the cached value is `jsonParseAndFreeze(JSON.stringify(v))`, it is
deep-frozen, it differs from `v` whenever `v` has any unfrozen node (so
the caller's value is not frozen by the call), attempted mutation of the
cached copy has no effect, and `getItem` afterwards depends only on the
resulting state, not on later changes to the caller's value. -/
theorem c9_independent_frozen_copy (h : Handle) (key : String) (v : Val)
    (st : GState) (h1 : v ≠ .vNull) (h2 : v ≠ .vUndefined) :
    ∃ st', setItem h key v st = .ok st' ∧
      alGet (cacheOf st' (cacheKeyOf h)) (buildKey h.pfx key) =
        some (frozenCopyOf v) ∧
      isDeepFrozen (frozenCopyOf v) = true ∧
      (isDeepFrozen v = false → frozenCopyOf v ≠ v) ∧
      (∀ (p : List PathE) (nv : Val),
        writeProp (frozenCopyOf v) p nv = frozenCopyOf v) ∧
      getItem h key st' = .ok (frozenCopyOf v, st') := by
  have hs := setItem_ok h key v st h1 h2
  obtain ⟨hc, -, -, hg⟩ := setItem_effects h key v st _ h1 h2 hs
  exact ⟨_, hs, hc, frozenCopyOf_deepFrozen v,
    fun hv => deepFrozen_ne_of_not_deepFrozen hv (frozenCopyOf_deepFrozen v),
    fun p nv => writeProp_deepFrozen p _ nv (frozenCopyOf_deepFrozen v),
    hg⟩

theorem c9_independent_frozen_copy_witness :
    (Val.vObj false [("x", .vNum 1)] ≠ .vNull) ∧
    (Val.vObj false [("x", .vNum 1)] ≠ .vUndefined) ∧
    ∃ st', setItem cHandle "b" (.vObj false [("x", .vNum 1)]) cState1 =
        .ok st' ∧
      alGet (cacheOf st' (cacheKeyOf cHandle)) (buildKey "p" "b") =
        some (frozenCopyOf (.vObj false [("x", .vNum 1)])) ∧
      isDeepFrozen (frozenCopyOf (.vObj false [("x", .vNum 1)])) = true ∧
      (isDeepFrozen (Val.vObj false [("x", .vNum 1)]) = false →
        frozenCopyOf (.vObj false [("x", .vNum 1)]) ≠
          .vObj false [("x", .vNum 1)]) ∧
      (∀ (p : List PathE) (nv : Val),
        writeProp (frozenCopyOf (.vObj false [("x", .vNum 1)])) p nv =
          frozenCopyOf (.vObj false [("x", .vNum 1)])) ∧
      getItem cHandle "b" st' =
        .ok (frozenCopyOf (.vObj false [("x", .vNum 1)]), st') :=
  ⟨fun e => Val.noConfusion e, fun e => Val.noConfusion e,
    c9_independent_frozen_copy cHandle "b" (.vObj false [("x", .vNum 1)])
      cState1 (fun e => Val.noConfusion e) (fun e => Val.noConfusion e)⟩

/-- C10: the registry key collapses every storage object other than
`window.localStorage` to the single class `session`, so any two
non-localStorage areas with the same namespace share one registry entry,
the same entry as `window.sessionStorage` with that namespace; a `setItem`
through a handle on one such area is served from the cache by `getItem`
through a handle on the other. -/
theorem c10_non_local_areas_share (s1 s2 : AreaId) (p : String)
    (h1 : s1 ≠ localStorageId) (h2 : s2 ≠ localStorageId) :
    getCacheKey s1 p = getCacheKey sessionStorageId p ∧
    getCacheKey s1 p = getCacheKey s2 p ∧
    cacheKeyOf ⟨s1, p⟩ = cacheKeyOf ⟨s2, p⟩ ∧
    ∀ (st st' : GState) (k : String) (v : Val),
      v ≠ .vNull → v ≠ .vUndefined →
      setItem ⟨s1, p⟩ k v st = .ok st' →
      getItem ⟨s2, p⟩ k st' = .ok (frozenCopyOf v, st') := by
  have e1 : getCacheKey s1 p = "session" ++ ":" ++ p := by
    simp [getCacheKey, h1]
  have e2 : getCacheKey s2 p = "session" ++ ":" ++ p := by
    simp [getCacheKey, h2]
  have e3 : getCacheKey sessionStorageId p = "session" ++ ":" ++ p := by
    simp [getCacheKey, sessionStorageId, localStorageId]
  refine ⟨e1.trans e3.symm, e1.trans e2.symm,
    by simpa [cacheKeyOf] using e1.trans e2.symm, ?_⟩
  intro st st' k v hv1 hv2 hs
  obtain ⟨hc, -, -, -⟩ := setItem_effects ⟨s1, p⟩ k v st st' hv1 hv2 hs
  apply getItem_cache_hit
  show alGet (cacheOf st' (cacheKeyOf ⟨s2, p⟩)) (buildKey p k) =
    some (frozenCopyOf v)
  have hck : cacheKeyOf (⟨s2, p⟩ : Handle) = cacheKeyOf (⟨s1, p⟩ : Handle) :=
    by simpa [cacheKeyOf] using e2.trans e1.symm
  rw [hck]
  exact hc

theorem c10_non_local_areas_share_witness :
    ((1 : AreaId) ≠ localStorageId) ∧ ((2 : AreaId) ≠ localStorageId) ∧
    getItem ⟨2, "q"⟩ "a" cStateS = .ok (frozenCopyOf (.vNum 5), cStateS) :=
  ⟨by decide, by decide,
    (c10_non_local_areas_share 1 2 "q" (by decide) (by decide)).2.2.2
      stEmpty cStateS "a" (.vNum 5) (fun e => Val.noConfusion e)
      (fun e => Val.noConfusion e) rfl⟩


/-! ## C2: the cache/managed-keys invariant -/

section InvLemmas

variable [DecidableEq α]

@[simp] theorem alHas_alSet_self (l : List (α × β)) (k : α) (v : β) :
    alHas (alSet l k v) k = true := by simp [alHas]

theorem alHas_alSet_ne (l : List (α × β)) (k k' : α) (v : β)
    (h : k' ≠ k) : alHas (alSet l k v) k' = alHas l k' := by
  simp [alHas, alGet_alSet_ne _ _ _ _ h]

@[simp] theorem alHas_alDelete_self (l : List (α × β)) (k : α) :
    alHas (alDelete l k) k = false := by simp [alHas]

theorem alHas_alDelete_ne (l : List (α × β)) (k k' : α) (h : k' ≠ k) :
    alHas (alDelete l k) k' = alHas l k' := by
  simp [alHas, alGet_alDelete_ne _ _ _ h]

end InvLemmas

/-- Deleting a key from both sides of a matching cache/managed pair keeps
them matching. -/
theorem match_after_delete (c : Cache) (m : KeySet) (k0 : String)
    (h : ∀ k, alHas c k = true ↔ k ∈ m) :
    ∀ k, alHas (alDelete c k0) k = true ↔ k ∈ ksDelete m k0 := by
  intro k
  by_cases hk : k = k0
  · subst hk
    simp
  · rw [alHas_alDelete_ne c k0 k hk]
    simp [hk, h k]

/-- Adding a key to both sides of a matching cache/managed pair keeps them
matching. -/
theorem match_after_add (c : Cache) (m : KeySet) (k0 : String) (v : Val)
    (h : ∀ k, alHas c k = true ↔ k ∈ m) :
    ∀ k, alHas (alSet c k0 v) k = true ↔ k ∈ ksAdd m k0 := by
  intro k
  by_cases hk : k = k0
  · subst hk
    simp
  · rw [alHas_alSet_ne c k0 k v hk, mem_ksAdd]
    simp [hk, h k]

/-- Updating one registry entry with a matching cache/managed pair
preserves the invariant everywhere. -/
theorem entryInv_pair_update (st : GState) (ck : String) (c : Cache)
    (m : KeySet) (hinv : ∀ x, entryInv st x)
    (hmatch : ∀ k, alHas c k = true ↔ k ∈ m) :
    ∀ x, entryInv (setManagedReg (setCacheReg st ck c) ck m) x := by
  intro x k
  by_cases hx : x = ck
  · subst hx
    rw [cacheOf_setManagedReg, cacheOf_setCacheReg_self,
      managedOf_setManagedReg_self]
    exact hmatch k
  · rw [cacheOf_setManagedReg, cacheOf_setCacheReg_ne _ _ _ _ hx,
      managedOf_setManagedReg_ne _ _ _ _ hx, managedOf_setCacheReg]
    exact hinv x k

theorem entryInv_syncStep (a : AreaId) (ck k : String) (st : GState)
    (hinv : ∀ x, entryInv st x) :
    ∀ x, entryInv (syncStep a ck k st) x := by
  unfold syncStep
  by_cases hn : (storageGetItem st a k).isNone
  · simp only [if_pos hn]
    exact entryInv_pair_update st ck _ _ hinv
      (match_after_delete _ _ k (fun k2 => hinv ck k2))
  · simpa [if_neg hn] using hinv

theorem entryInv_syncLoop (a : AreaId) (ck : String) :
    ∀ (ks : List String) (st : GState), (∀ x, entryInv st x) →
      ∀ x, entryInv (syncLoop a ck ks st) x
  | [], _, hinv => hinv
  | k :: ks, st, hinv =>
    entryInv_syncLoop a ck ks (syncStep a ck k st)
      (entryInv_syncStep a ck k st hinv)

theorem entryInv_scanStep (ck k : String) (v : Val) (st : GState)
    (hinv : ∀ x, entryInv st x) :
    ∀ x, entryInv (scanStep ck k v st) x :=
  entryInv_pair_update st ck _ _ hinv
    (match_after_add _ _ k v (fun k2 => hinv ck k2))

theorem entryInv_scanLoop (a : AreaId) (pfx ck : String) :
    ∀ (l : List (String × Raw)) (st st' : GState),
      (∀ x, entryInv st x) → scanLoop a pfx ck l st = .ok st' →
      ∀ x, entryInv st' x
  | [], st, st', hinv, heq => by
    rw [show scanLoop a pfx ck [] st = .ok st from rfl] at heq
    exact (Except.ok.inj heq) ▸ hinv
  | (k, r) :: rest, st, st', hinv, heq => by
    rw [show scanLoop a pfx ck ((k, r) :: rest) st =
      (if strStartsWith k (pfx ++ ":") && !((managedOf st ck).contains k)
       then
        match jsonParseAndFreeze (storageGetItem st a k) with
        | .error e => .error e
        | .ok v => scanLoop a pfx ck rest (scanStep ck k v st)
       else scanLoop a pfx ck rest st) from rfl] at heq
    by_cases hcond : (strStartsWith k (pfx ++ ":") &&
        !((managedOf st ck).contains k)) = true
    · rw [if_pos hcond] at heq
      cases hp : jsonParseAndFreeze (storageGetItem st a k) with
      | error e =>
        rw [hp] at heq
        exact absurd heq (fun he => Except.noConfusion he)
      | ok v =>
        rw [hp] at heq
        exact entryInv_scanLoop a pfx ck rest _ st'
          (entryInv_scanStep ck k v st hinv) heq
    · rw [if_neg hcond] at heq
      exact entryInv_scanLoop a pfx ck rest st st' hinv heq

theorem entryInv_removeItem (h : Handle) (k : String) (st : GState)
    (hinv : ∀ x, entryInv st x) :
    ∀ x, entryInv (removeItem h k st) x := by
  intro x k2
  unfold removeItem
  rw [show cacheOf (storageRemoveItem (setManagedReg
      (setCacheReg st (cacheKeyOf h)
        (alDelete (cacheOf st (cacheKeyOf h)) (buildKey h.pfx k)))
      (cacheKeyOf h)
      (ksDelete (managedOf (setCacheReg st (cacheKeyOf h)
        (alDelete (cacheOf st (cacheKeyOf h)) (buildKey h.pfx k)))
        (cacheKeyOf h)) (buildKey h.pfx k)))
      h.storage (buildKey h.pfx k)) x = cacheOf (setManagedReg
      (setCacheReg st (cacheKeyOf h)
        (alDelete (cacheOf st (cacheKeyOf h)) (buildKey h.pfx k)))
      (cacheKeyOf h)
      (ksDelete (managedOf st (cacheKeyOf h)) (buildKey h.pfx k))) x
    from rfl]
  rw [show managedOf (storageRemoveItem (setManagedReg
      (setCacheReg st (cacheKeyOf h)
        (alDelete (cacheOf st (cacheKeyOf h)) (buildKey h.pfx k)))
      (cacheKeyOf h)
      (ksDelete (managedOf (setCacheReg st (cacheKeyOf h)
        (alDelete (cacheOf st (cacheKeyOf h)) (buildKey h.pfx k)))
        (cacheKeyOf h)) (buildKey h.pfx k)))
      h.storage (buildKey h.pfx k)) x = managedOf (setManagedReg
      (setCacheReg st (cacheKeyOf h)
        (alDelete (cacheOf st (cacheKeyOf h)) (buildKey h.pfx k)))
      (cacheKeyOf h)
      (ksDelete (managedOf st (cacheKeyOf h)) (buildKey h.pfx k))) x
    from rfl]
  exact entryInv_pair_update st (cacheKeyOf h) _ _ hinv
    (match_after_delete _ _ (buildKey h.pfx k)
      (fun k2 => hinv (cacheKeyOf h) k2)) x k2

theorem sharedCaches_clearSubstrateLoop (a : AreaId) :
    ∀ (ks : List String) (st : GState),
      (clearSubstrateLoop a ks st).sharedCaches = st.sharedCaches ∧
      (clearSubstrateLoop a ks st).sharedManagedKeys = st.sharedManagedKeys
  | [], _ => ⟨rfl, rfl⟩
  | k :: ks, st => sharedCaches_clearSubstrateLoop a ks
      (storageRemoveItem st a k)

theorem entryInv_clear (h : Handle) (st : GState)
    (hinv : ∀ x, entryInv st x) : ∀ x, entryInv (clear h st) x := by
  unfold clear
  set ks := managedOf st (cacheKeyOf h) with hks
  obtain ⟨hcs, hms⟩ := sharedCaches_clearSubstrateLoop h.storage ks st
  have hc2 : ∀ y, cacheOf (clearSubstrateLoop h.storage ks st) y =
      cacheOf st y := by
    intro y
    unfold cacheOf
    rw [hcs]
  have hm2 : ∀ y, managedOf (clearSubstrateLoop h.storage ks st) y =
      managedOf st y := by
    intro y
    unfold managedOf
    rw [hms]
  intro x k
  by_cases hx : x = cacheKeyOf h
  · subst hx
    rw [show cacheOf (setManagedReg (setCacheReg (clearSubstrateLoop
        h.storage ks st) (cacheKeyOf h) []) (cacheKeyOf h) [])
        (cacheKeyOf h) = ([] : Cache) from by
      rw [cacheOf_setManagedReg, cacheOf_setCacheReg_self]]
    rw [show managedOf (setManagedReg (setCacheReg (clearSubstrateLoop
        h.storage ks st) (cacheKeyOf h) []) (cacheKeyOf h) [])
        (cacheKeyOf h) = ([] : KeySet) from by
      rw [managedOf_setManagedReg_self]]
    simp [alHas]
  · rw [show cacheOf (setManagedReg (setCacheReg (clearSubstrateLoop
        h.storage ks st) (cacheKeyOf h) []) (cacheKeyOf h) []) x =
        cacheOf (clearSubstrateLoop h.storage ks st) x from by
      rw [cacheOf_setManagedReg, cacheOf_setCacheReg_ne _ _ _ _ hx]]
    rw [show managedOf (setManagedReg (setCacheReg (clearSubstrateLoop
        h.storage ks st) (cacheKeyOf h) []) (cacheKeyOf h) []) x =
        managedOf (clearSubstrateLoop h.storage ks st) x from by
      rw [managedOf_setManagedReg_ne _ _ _ _ hx, managedOf_setCacheReg]]
    rw [hc2 x, hm2 x]
    exact hinv x k

theorem entryInv_setItem (h : Handle) (k : String) (v : Val)
    (st st' : GState) (hinv : ∀ x, entryInv st x)
    (hs : setItem h k v st = .ok st') : ∀ x, entryInv st' x := by
  by_cases hv : v = .vNull
  · subst hv
    have hst : removeItem h k st = st' := by simpa [setItem] using hs
    exact hst ▸ entryInv_removeItem h k st hinv
  by_cases hu : v = .vUndefined
  · subst hu
    have hst : removeItem h k st = st' := by simpa [setItem] using hs
    exact hst ▸ entryInv_removeItem h k st hinv
  rw [setItem_ok h k v st hv hu] at hs
  have hst := (Except.ok.inj hs).symm
  subst hst
  intro x k2
  rw [show cacheOf (storageSetItem (setManagedReg (setCacheReg st
      (cacheKeyOf h) (alSet (cacheOf st (cacheKeyOf h)) (buildKey h.pfx k)
      (frozenCopyOf v))) (cacheKeyOf h)
      (ksAdd (managedOf st (cacheKeyOf h)) (buildKey h.pfx k)))
      h.storage (buildKey h.pfx k) (rawWriteOf v)) x =
    cacheOf (setManagedReg (setCacheReg st (cacheKeyOf h)
      (alSet (cacheOf st (cacheKeyOf h)) (buildKey h.pfx k)
      (frozenCopyOf v))) (cacheKeyOf h)
      (ksAdd (managedOf st (cacheKeyOf h)) (buildKey h.pfx k))) x
    from rfl]
  rw [show managedOf (storageSetItem (setManagedReg (setCacheReg st
      (cacheKeyOf h) (alSet (cacheOf st (cacheKeyOf h)) (buildKey h.pfx k)
      (frozenCopyOf v))) (cacheKeyOf h)
      (ksAdd (managedOf st (cacheKeyOf h)) (buildKey h.pfx k)))
      h.storage (buildKey h.pfx k) (rawWriteOf v)) x =
    managedOf (setManagedReg (setCacheReg st (cacheKeyOf h)
      (alSet (cacheOf st (cacheKeyOf h)) (buildKey h.pfx k)
      (frozenCopyOf v))) (cacheKeyOf h)
      (ksAdd (managedOf st (cacheKeyOf h)) (buildKey h.pfx k))) x
    from rfl]
  exact entryInv_pair_update st (cacheKeyOf h) _ _ hinv
    (match_after_add _ _ (buildKey h.pfx k) (frozenCopyOf v)
      (fun k2 => hinv (cacheKeyOf h) k2)) x k2

theorem entryInv_createEntry (ck : String) (st : GState)
    (hinv : ∀ x, entryInv st x) : ∀ x, entryInv (createEntry ck st) x := by
  unfold createEntry
  by_cases hhas : alHas st.sharedCaches ck = true
  · simpa [hhas] using hinv
  · rw [if_neg (by simpa using hhas)]
    intro x k
    by_cases hx : x = ck
    · subst hx
      rw [show cacheOf { st with
          sharedCaches := alSet st.sharedCaches x []
          sharedManagedKeys := alSet st.sharedManagedKeys x [] } x =
        ([] : Cache) from by
          unfold cacheOf
          simp]
      rw [show managedOf { st with
          sharedCaches := alSet st.sharedCaches x []
          sharedManagedKeys := alSet st.sharedManagedKeys x [] } x =
        ([] : KeySet) from by
          unfold managedOf
          simp]
      simp [alHas]
    · rw [show cacheOf { st with
          sharedCaches := alSet st.sharedCaches ck []
          sharedManagedKeys := alSet st.sharedManagedKeys ck [] } x =
        cacheOf st x from by
          unfold cacheOf
          rw [alGet_alSet_ne _ _ _ _ hx]]
      rw [show managedOf { st with
          sharedCaches := alSet st.sharedCaches ck []
          sharedManagedKeys := alSet st.sharedManagedKeys ck [] } x =
        managedOf st x from by
          unfold managedOf
          rw [alGet_alSet_ne _ _ _ _ hx]]
      exact hinv x k

theorem cacheOf_registerListener (a : AreaId) (st : GState) (x : String) :
    cacheOf (registerListener a st) x = cacheOf st x := by
  unfold registerListener
  split <;> rfl

theorem managedOf_registerListener (a : AreaId) (st : GState)
    (x : String) : managedOf (registerListener a st) x = managedOf st x := by
  unfold registerListener
  split <;> rfl

/-- The unfolded shape of `construct`, for rewriting. -/
theorem construct_eq (a : AreaId) (pfxOpt : Option String) (st : GState) :
    construct a pfxOpt st =
      (match scanLoop a (pfxOpt.getD defaultPfx)
          (getCacheKey a (pfxOpt.getD defaultPfx))
          (areaContent (syncLoop a (getCacheKey a (pfxOpt.getD defaultPfx))
            (managedOf (createEntry (getCacheKey a (pfxOpt.getD defaultPfx))
              st) (getCacheKey a (pfxOpt.getD defaultPfx)))
            (createEntry (getCacheKey a (pfxOpt.getD defaultPfx)) st)) a)
          (syncLoop a (getCacheKey a (pfxOpt.getD defaultPfx))
            (managedOf (createEntry (getCacheKey a (pfxOpt.getD defaultPfx))
              st) (getCacheKey a (pfxOpt.getD defaultPfx)))
            (createEntry (getCacheKey a (pfxOpt.getD defaultPfx)) st)) with
       | .error e => .error e
       | .ok st3 => .ok (registerListener a st3)) := rfl

theorem entryInv_construct (a : AreaId) (pfxOpt : Option String)
    (st st' : GState) (hinv : ∀ x, entryInv st x)
    (hc : construct a pfxOpt st = .ok st') : ∀ x, entryInv st' x := by
  rw [construct_eq] at hc
  have hinv1 := entryInv_createEntry
    (getCacheKey a (pfxOpt.getD defaultPfx)) st hinv
  have hinv2 := entryInv_syncLoop a (getCacheKey a (pfxOpt.getD defaultPfx))
    (managedOf (createEntry (getCacheKey a (pfxOpt.getD defaultPfx)) st)
      (getCacheKey a (pfxOpt.getD defaultPfx)))
    (createEntry (getCacheKey a (pfxOpt.getD defaultPfx)) st) hinv1
  cases hScan : scanLoop a (pfxOpt.getD defaultPfx)
      (getCacheKey a (pfxOpt.getD defaultPfx))
      (areaContent (syncLoop a (getCacheKey a (pfxOpt.getD defaultPfx))
        (managedOf (createEntry (getCacheKey a (pfxOpt.getD defaultPfx))
          st) (getCacheKey a (pfxOpt.getD defaultPfx)))
        (createEntry (getCacheKey a (pfxOpt.getD defaultPfx)) st)) a)
      (syncLoop a (getCacheKey a (pfxOpt.getD defaultPfx))
        (managedOf (createEntry (getCacheKey a (pfxOpt.getD defaultPfx))
          st) (getCacheKey a (pfxOpt.getD defaultPfx)))
        (createEntry (getCacheKey a (pfxOpt.getD defaultPfx)) st)) with
  | error e =>
    rw [hScan] at hc
    exact absurd hc (fun he => Except.noConfusion he)
  | ok st3 =>
    rw [hScan] at hc
    have hinv3 := entryInv_scanLoop a (pfxOpt.getD defaultPfx)
      (getCacheKey a (pfxOpt.getD defaultPfx)) _ _ st3 hinv2 hScan
    have hst' := Except.ok.inj hc
    subst hst'
    intro x k
    rw [cacheOf_registerListener, managedOf_registerListener]
    exact hinv3 x k

/-- C2 counterexample: three public operations leave the cache mapping and
the managed-key set out of sync.  `clearCache` empties only the cache;
`getItem`'s repair path caches a key without managing it; the storage
event handler with an absent new value keeps the key in the cache (mapped
to `null`) while dropping it from the managed set. -/
theorem c2_counterexample :
    (alHas (cacheOf (clearCache cHandle cState2) (cacheKeyOf cHandle))
        "p:a" = false ∧
      "p:a" ∈ managedOf (clearCache cHandle cState2)
        (cacheKeyOf cHandle)) ∧
    (alHas (cacheOf cStateX2 (cacheKeyOf cHandle)) "p:z" = true ∧
      "p:z" ∉ managedOf cStateX2 (cacheKeyOf cHandle)) ∧
    (alHas (cacheOf cStateE (cacheKeyOf cHandle)) "p:a" = true ∧
      "p:a" ∉ managedOf cStateE (cacheKeyOf cHandle)) :=
  ⟨⟨rfl, by decide⟩, ⟨rfl, by decide⟩, ⟨rfl, by decide⟩⟩

/-- C2 amended: the cache-keys/managed-keys equality is an invariant of
handle construction, `setItem`, `removeItem` and `clear` (each preserves
it for every registry entry), but it is not maintained by `clearCache`,
by `getItem`'s repair path, or by the storage event handler. -/
theorem c2_amended (st : GState) (hinv : ∀ ck, entryInv st ck) :
    (∀ a pfxOpt st', construct a pfxOpt st = .ok st' →
      ∀ ck, entryInv st' ck) ∧
    (∀ h k v st', setItem h k v st = .ok st' → ∀ ck, entryInv st' ck) ∧
    (∀ h k, ∀ ck, entryInv (removeItem h k st) ck) ∧
    (∀ h, ∀ ck, entryInv (clear h st) ck) :=
  ⟨fun a pfxOpt st' hc => entryInv_construct a pfxOpt st st' hinv hc,
   fun h k v st' hs => entryInv_setItem h k v st st' hinv hs,
   fun h k => entryInv_removeItem h k st hinv,
   fun h => entryInv_clear h st hinv⟩

theorem c2_amended_witness :
    (∀ ck, entryInv cState1 ck) ∧
    (∀ ck, entryInv (removeItem cHandle "a" cState1) ck) := by
  have hinv : ∀ ck, entryInv cState1 ck := by
    intro ck k
    show alHas (cacheOf cState1 ck) k = true ↔ k ∈ managedOf cState1 ck
    by_cases hck : ck = "local:p"
    · subst hck
      rw [show cacheOf cState1 "local:p" = ([] : Cache) from rfl,
        show managedOf cState1 "local:p" = ([] : KeySet) from rfl]
      simp [alHas]
    · rw [show cacheOf cState1 ck = (alGet [("local:p", ([] : Cache))]
          ck).getD [] from rfl,
        show managedOf cState1 ck = (alGet [("local:p", ([] : KeySet))]
          ck).getD [] from rfl]
      have hne : ¬("local:p" = ck) := fun e => hck e.symm
      simp [alGet, hne, alHas]
  exact ⟨hinv, (c2_amended cState1 hinv).2.2.1 cHandle "a"⟩


/-! ## C5: the storage event handler -/

theorem alGet_mem [inst : DecidableEq α] :
    ∀ (l : List (α × β)) (k : α) (v : β), alGet l k = some v → (k, v) ∈ l
  | [], _, _, h => by simp [alGet] at h
  | (a, b) :: rest, k, v, h => by
    by_cases hak : a = k
    · subst hak
      have hb : b = v := by simpa [alGet] using h
      subst hb
      exact List.mem_cons_self _ _
    · simp only [alGet, if_neg hak] at h
      exact List.mem_cons_of_mem _ (alGet_mem rest k v h)

theorem alGet_some_mem_keys [inst : DecidableEq α] :
    ∀ (l : List (α × β)) (k : α) (v : β), alGet l k = some v →
      k ∈ l.map Prod.fst
  | [], _, _, h => by simp [alGet] at h
  | (a, b) :: rest, k, v, h => by
    by_cases hak : a = k
    · subst hak
      simp
    · simp only [alGet, if_neg hak] at h
      simp [alGet_some_mem_keys rest k v h]

/-- A key managed by entry `ck` means `ck` is a key of the registry. -/
theorem mem_keys_of_managed (st : GState) (ck k : String)
    (h : k ∈ managedOf st ck) : ck ∈ st.sharedManagedKeys.map Prod.fst := by
  unfold managedOf at h
  cases hg : alGet st.sharedManagedKeys ck with
  | none =>
    rw [hg] at h
    simp at h
  | some m => exact alGet_some_mem_keys st.sharedManagedKeys ck m hg

theorem eventStep_self_cache (ck k : String) (w : Val) (st : GState) :
    cacheOf (eventStep ck k w st) ck = alSet (cacheOf st ck) k w := by
  unfold eventStep
  split <;> simp

theorem eventStep_self_managed (ck k : String) (w : Val) (st : GState) :
    managedOf (eventStep ck k w st) ck =
      (if isNullVal w then ksDelete (managedOf st ck) k
       else ksAdd (managedOf st ck) k) := by
  by_cases hn : isNullVal w = true
  · simp [eventStep, hn]
  · simp [eventStep, hn]

theorem eventStep_other (ck k : String) (w : Val) (st : GState)
    (x : String) (hx : x ≠ ck) :
    cacheOf (eventStep ck k w st) x = cacheOf st x ∧
      managedOf (eventStep ck k w st) x = managedOf st x := by
  unfold eventStep
  split <;>
    exact ⟨by rw [cacheOf_setManagedReg, cacheOf_setCacheReg_ne _ _ _ _ hx],
      by rw [managedOf_setManagedReg_ne _ _ _ _ hx, managedOf_setCacheReg]⟩

/-- Full characterization of the listener's per-entry loop: entries not
visited (or visited but of the wrong storage class, or not currently
managing the key) are untouched; an entry of the matching class that
manages the key gets the parsed value written into its cache and the key
added to or dropped from its managed set according to whether the value is
`null`. -/
theorem eventLoop_spec (cls k : String) (raw : Option Raw) (w : Val)
    (hw : jsonParseAndFreeze raw = .ok w) :
    ∀ (l : List String) (st st' : GState), l.Nodup →
      eventLoop cls k raw l st = .ok st' →
      (∀ ck, ck ∉ l →
        cacheOf st' ck = cacheOf st ck ∧
        managedOf st' ck = managedOf st ck) ∧
      (∀ ck, ck ∈ l →
        (strStartsWith ck cls = true ∧ k ∈ managedOf st ck →
          cacheOf st' ck = alSet (cacheOf st ck) k w ∧
          managedOf st' ck =
            (if isNullVal w then ksDelete (managedOf st ck) k
             else ksAdd (managedOf st ck) k)) ∧
        (¬(strStartsWith ck cls = true ∧ k ∈ managedOf st ck) →
          cacheOf st' ck = cacheOf st ck ∧
          managedOf st' ck = managedOf st ck))
  | [], st, st', _, heq => by
    have hst := Except.ok.inj heq
    subst hst
    exact ⟨fun ck _ => ⟨rfl, rfl⟩, fun ck hck => absurd hck (by simp)⟩
  | ck0 :: rest, st, st', hnd, heq => by
    rw [show eventLoop cls k raw (ck0 :: rest) st =
      (if strStartsWith ck0 cls && (managedOf st ck0).contains k then
        match jsonParseAndFreeze raw with
        | .error e => .error e
        | .ok newValue => eventLoop cls k raw rest (eventStep ck0 k newValue st)
       else eventLoop cls k raw rest st) from rfl] at heq
    have hnd0 : ck0 ∉ rest := (List.nodup_cons.mp hnd).1
    have hndr : rest.Nodup := (List.nodup_cons.mp hnd).2
    by_cases hcond :
        (strStartsWith ck0 cls && (managedOf st ck0).contains k) = true
    · rw [if_pos hcond, hw] at heq
      obtain ⟨hout, hin⟩ :=
        eventLoop_spec cls k raw w hw rest (eventStep ck0 k w st) st'
          hndr heq
      have hparts : strStartsWith ck0 cls = true ∧
          (managedOf st ck0).contains k = true := by simpa using hcond
      have hsw0 : strStartsWith ck0 cls = true := hparts.1
      have hmem0 : k ∈ managedOf st ck0 := by simpa using hparts.2
      constructor
      · intro ck hck
        have h1 : ck ∉ rest := fun hr => hck (List.mem_cons_of_mem _ hr)
        have h2 : ck ≠ ck0 := fun e => hck (e ▸ List.mem_cons_self _ _)
        obtain ⟨e1, e2⟩ := hout ck h1
        obtain ⟨e3, e4⟩ := eventStep_other ck0 k w st ck h2
        exact ⟨e1.trans e3, e2.trans e4⟩
      · intro ck hck
        rcases List.mem_cons.mp hck with rfl | hr
        · obtain ⟨e1, e2⟩ := hout ck hnd0
          refine ⟨fun _ => ?_, fun hfalse => absurd ⟨hsw0, hmem0⟩ hfalse⟩
          rw [e1, e2]
          exact ⟨eventStep_self_cache ck k w st,
            eventStep_self_managed ck k w st⟩
        · have h2 : ck ≠ ck0 := fun e => hnd0 (e ▸ hr)
          obtain ⟨e3, e4⟩ := eventStep_other ck0 k w st ck h2
          have hck2 := hin ck hr
          constructor
          · rintro ⟨hsw, hmem⟩
            obtain ⟨f1, f2⟩ := hck2.1 ⟨hsw, by rw [e4]; exact hmem⟩
            rw [f1, f2, e3, e4]
            exact ⟨rfl, rfl⟩
          · intro hfalse
            have hfalse2 : ¬(strStartsWith ck cls = true ∧
                k ∈ managedOf (eventStep ck0 k w st) ck) := by
              rw [e4]
              exact hfalse
            obtain ⟨f1, f2⟩ := hck2.2 hfalse2
            rw [f1, f2, e3, e4]
            exact ⟨rfl, rfl⟩
    · rw [if_neg hcond] at heq
      obtain ⟨hout, hin⟩ := eventLoop_spec cls k raw w hw rest st st'
        hndr heq
      constructor
      · intro ck hck
        exact hout ck (fun hr => hck (List.mem_cons_of_mem _ hr))
      · intro ck hck
        rcases List.mem_cons.mp hck with rfl | hr
        · have hfalse : ¬(strStartsWith ck cls = true ∧
              k ∈ managedOf st ck) := by
            rintro ⟨hsw, hmem⟩
            apply hcond
            rw [Bool.and_eq_true]
            exact ⟨hsw, by simpa using hmem⟩
          obtain ⟨e1, e2⟩ := hout ck hnd0
          exact ⟨fun hcontr => absurd hcontr hfalse, fun _ => ⟨e1, e2⟩⟩
        · exact hin ck hr

theorem listenerStep_none (ls : AreaId) (ev : StorageEvent) (st : GState)
    (hk : ev.key = none) : listenerStep ls ev st = .ok st := by
  obtain ⟨ko, nv, sa⟩ := ev
  cases ko with
  | none => rfl
  | some k => exact absurd hk (by simp)

theorem listenerStep_other_area (ls : AreaId) (ev : StorageEvent)
    (st : GState) (hne : ev.storageArea ≠ ls) :
    listenerStep ls ev st = .ok st := by
  obtain ⟨ko, nv, sa⟩ := ev
  cases ko with
  | none => rfl
  | some k =>
    show (if sa ≠ ls then Except.ok st else _) = Except.ok st
    rw [if_pos hne]

theorem listenerStep_origin_eq (ls : AreaId) (ev : StorageEvent)
    (st : GState) (k : String) (hk : ev.key = some k)
    (ha : ev.storageArea = ls) :
    listenerStep ls ev st = eventLoop (storageClassOf ls) k ev.newValue
      (st.sharedManagedKeys.map Prod.fst) st := by
  obtain ⟨ko, nv, sa⟩ := ev
  simp only [StorageEvent.key] at hk
  subst hk
  simp only [StorageEvent.storageArea] at ha
  subst ha
  show (if sa ≠ sa then Except.ok st else _) = _
  rw [if_neg (fun h => h rfl)]

theorem dispatchLoop_skip (ev : StorageEvent) :
    ∀ (l : List AreaId) (st : GState), (∀ ls ∈ l, ev.storageArea ≠ ls) →
      dispatchLoop ev l st = .ok st
  | [], _, _ => rfl
  | ls :: rest, st, hall => by
    rw [show dispatchLoop ev (ls :: rest) st =
      (match listenerStep ls ev st with
       | .error e => .error e
       | .ok st2 => dispatchLoop ev rest st2) from rfl]
    rw [listenerStep_other_area ls ev st (hall ls (List.mem_cons_self _ _))]
    exact dispatchLoop_skip ev rest st
      (fun x hx => hall x (List.mem_cons_of_mem _ hx))

/-- When the origin is among the registered listeners, dispatching is
exactly the origin's listener invocation: all other listeners ignore the
event. -/
theorem dispatchLoop_inv (ev : StorageEvent) :
    ∀ (l : List AreaId) (st st' : GState), l.Nodup →
      ev.storageArea ∈ l → dispatchLoop ev l st = .ok st' →
      listenerStep ev.storageArea ev st = .ok st'
  | [], _, _, _, hmem, _ => absurd hmem (by simp)
  | ls :: rest, st, st', hnd, hmem, heq => by
    rw [show dispatchLoop ev (ls :: rest) st =
      (match listenerStep ls ev st with
       | .error e => .error e
       | .ok st2 => dispatchLoop ev rest st2) from rfl] at heq
    have hnd0 : ls ∉ rest := (List.nodup_cons.mp hnd).1
    have hndr : rest.Nodup := (List.nodup_cons.mp hnd).2
    by_cases hls : ev.storageArea = ls
    · subst hls
      cases hstep : listenerStep ev.storageArea ev st with
      | error e =>
        rw [hstep] at heq
        exact absurd heq (fun he => Except.noConfusion he)
      | ok st2 =>
        rw [hstep] at heq
        rw [show (match (Except.ok st2 : Except JsError GState) with
          | Except.error e => Except.error e
          | Except.ok st2 => dispatchLoop ev rest st2) =
          dispatchLoop ev rest st2 from rfl] at heq
        have hskip := dispatchLoop_skip ev rest st2
          (fun x hx => fun e => hnd0 (e ▸ hx))
        rw [hskip] at heq
        exact congrArg Except.ok (Except.ok.inj heq)
    · rw [listenerStep_other_area ls ev st hls] at heq
      rw [show (match (Except.ok st : Except JsError GState) with
        | Except.error e => Except.error e
        | Except.ok st2 => dispatchLoop ev rest st2) =
        dispatchLoop ev rest st from rfl] at heq
      have hmem2 : ev.storageArea ∈ rest := by
        rcases List.mem_cons.mp hmem with he | hr
        · exact absurd he hls
        · exact hr
      exact dispatchLoop_inv ev rest st st' hndr hmem2 heq

/-- C5 counterexample, in two parts.  (a) A notification removing the
managed key `p:a` (absent new value) does NOT drop the key from the
entry's cache: the key stays cached, mapped to `null`, while it is dropped
from the managed set.  (b) A notification carrying a value for `p:new` — a
key under the watched namespace that is not currently managed — is
ignored entirely instead of being decoded, cached and added to the
managed set. -/
theorem c5_counterexample :
    (alHas (cacheOf cStateE (cacheKeyOf cHandle)) "p:a" = true ∧
      "p:a" ∉ managedOf cStateE (cacheKeyOf cHandle) ∧
      alGet (cacheOf cStateE (cacheKeyOf cHandle)) "p:a" = some .vNull) ∧
    (dispatchStorageEvent
        ⟨some "p:new", some (.wellFormed (.str "x")), localStorageId⟩
        cState2 = .ok cState2 ∧
      alHas (cacheOf cState2 (cacheKeyOf cHandle)) "p:new" = false ∧
      "p:new" ∉ managedOf cState2 (cacheKeyOf cHandle)) :=
  ⟨⟨rfl, by decide, rfl⟩, ⟨rfl, rfl, by decide⟩⟩

/-- C5 amended: a notification with an absent key, or whose origin storage
object has no registered listener, changes nothing.  Otherwise only the
one listener registered for the origin acts, and for each registry entry:
an entry of a different storage class than the origin, or one that does
not currently manage the notified key, is untouched (in particular a
NEW key under a watched namespace is ignored, not added); an entry of the
matching class that manages the key gets the decoded-and-frozen value
written into its cache — the key always stays in the cache — and the key
is dropped from (if the value decoded to null, e.g. an absent raw value)
or kept in (otherwise) the managed-key set. -/
theorem c5_amended (ev : StorageEvent) (st : GState) :
    (ev.key = none → dispatchStorageEvent ev st = .ok st) ∧
    (ev.storageArea ∉ st.listenerRegistered →
      dispatchStorageEvent ev st = .ok st) ∧
    (∀ k w st', ev.key = some k →
      jsonParseAndFreeze ev.newValue = .ok w →
      st.listenerRegistered.Nodup →
      (st.sharedManagedKeys.map Prod.fst).Nodup →
      ev.storageArea ∈ st.listenerRegistered →
      dispatchStorageEvent ev st = .ok st' →
      ∀ ck,
        ((¬strStartsWith ck (storageClassOf ev.storageArea) = true ∨
            k ∉ managedOf st ck) →
          cacheOf st' ck = cacheOf st ck ∧
          managedOf st' ck = managedOf st ck) ∧
        (strStartsWith ck (storageClassOf ev.storageArea) = true →
          k ∈ managedOf st ck →
          cacheOf st' ck = alSet (cacheOf st ck) k w ∧
          managedOf st' ck =
            (if isNullVal w then ksDelete (managedOf st ck) k
             else ksAdd (managedOf st ck) k))) := by
  refine ⟨?_, ?_, ?_⟩
  · intro hk
    unfold dispatchStorageEvent
    generalize st.listenerRegistered = l
    induction l with
    | nil => rfl
    | cons ls rest ih =>
      rw [show dispatchLoop ev (ls :: rest) st =
        (match listenerStep ls ev st with
         | .error e => .error e
         | .ok st2 => dispatchLoop ev rest st2) from rfl]
      rw [listenerStep_none ls ev st hk]
      exact ih
  · intro hmem
    exact dispatchLoop_skip ev st.listenerRegistered st
      (fun ls hls => fun e => hmem (e ▸ hls))
  · intro k w st' hk hw hndl hndm hmem hdisp
    have hstep := dispatchLoop_inv ev st.listenerRegistered st st' hndl
      hmem hdisp
    rw [listenerStep_origin_eq ev.storageArea ev st k hk rfl] at hstep
    obtain ⟨hout, hin⟩ := eventLoop_spec (storageClassOf ev.storageArea) k
      ev.newValue w hw (st.sharedManagedKeys.map Prod.fst) st st' hndm
      hstep
    intro ck
    constructor
    · intro hskip
      by_cases hckmem : ck ∈ st.sharedManagedKeys.map Prod.fst
      · refine (hin ck hckmem).2 ?_
        rintro ⟨hsw, hm⟩
        rcases hskip with hns | hnm
        · exact hns hsw
        · exact hnm hm
      · exact hout ck hckmem
    · intro hsw hm
      exact (hin ck (mem_keys_of_managed st ck k hm)).1 ⟨hsw, hm⟩

theorem c5_amended_witness :
    evW.key = some "p:a" ∧
    jsonParseAndFreeze evW.newValue = .ok (freezeJSON (.num 7)) ∧
    cState2.listenerRegistered.Nodup ∧
    (cState2.sharedManagedKeys.map Prod.fst).Nodup ∧
    evW.storageArea ∈ cState2.listenerRegistered ∧
    dispatchStorageEvent evW cState2 = .ok cStateEW ∧
    (strStartsWith "local:p" (storageClassOf evW.storageArea) = true →
      "p:a" ∈ managedOf cState2 "local:p" →
      cacheOf cStateEW "local:p" =
        alSet (cacheOf cState2 "local:p") "p:a" (freezeJSON (.num 7)) ∧
      managedOf cStateEW "local:p" =
        (if isNullVal (freezeJSON (.num 7)) then
          ksDelete (managedOf cState2 "local:p") "p:a"
         else ksAdd (managedOf cState2 "local:p") "p:a")) :=
  ⟨rfl, rfl, by decide, by decide, by decide, rfl,
    ((c5_amended evW cState2).2.2 "p:a" (freezeJSON (.num 7)) cStateEW rfl
      rfl (by decide) (by decide) (by decide) rfl "local:p").2⟩


/-! ## C1 & C6: construction reconciliation -/

theorem strStartsWith_append (a b : String) :
    strStartsWith (a ++ b) a = true := by
  simp [strStartsWith, String.data_append]

theorem areas_syncStep (a : AreaId) (ck k : String) (st : GState) :
    (syncStep a ck k st).areas = st.areas := by
  unfold syncStep
  split <;> rfl

theorem areas_syncLoop (a : AreaId) (ck : String) :
    ∀ (ks : List String) (st : GState),
      (syncLoop a ck ks st).areas = st.areas
  | [], _ => rfl
  | k :: ks, st =>
    (areas_syncLoop a ck ks (syncStep a ck k st)).trans
      (areas_syncStep a ck k st)

theorem areas_scanLoop (a : AreaId) (pfx ck : String) :
    ∀ (l : List (String × Raw)) (st st' : GState),
      scanLoop a pfx ck l st = .ok st' → st'.areas = st.areas
  | [], st, st', heq => by
    rw [Except.ok.inj heq]
  | (k, r) :: rest, st, st', heq => by
    rw [show scanLoop a pfx ck ((k, r) :: rest) st =
      (if strStartsWith k (pfx ++ ":") && !((managedOf st ck).contains k)
       then
        match jsonParseAndFreeze (storageGetItem st a k) with
        | .error e => .error e
        | .ok v => scanLoop a pfx ck rest (scanStep ck k v st)
       else scanLoop a pfx ck rest st) from rfl] at heq
    by_cases hcond : (strStartsWith k (pfx ++ ":") &&
        !((managedOf st ck).contains k)) = true
    · rw [if_pos hcond] at heq
      cases hp : jsonParseAndFreeze (storageGetItem st a k) with
      | error e =>
        rw [hp] at heq
        exact absurd heq (fun he => Except.noConfusion he)
      | ok v =>
        rw [hp] at heq
        exact areas_scanLoop a pfx ck rest (scanStep ck k v st) st' heq
    · rw [if_neg hcond] at heq
      exact areas_scanLoop a pfx ck rest st st' heq

theorem areas_createEntry (ck : String) (st : GState) :
    (createEntry ck st).areas = st.areas := by
  unfold createEntry
  split <;> rfl

theorem areas_registerListener (a : AreaId) (st : GState) :
    (registerListener a st).areas = st.areas := by
  unfold registerListener
  split <;> rfl

theorem storageGetItem_congr (st st' : GState) (a : AreaId) (k : String)
    (h : st'.areas = st.areas) :
    storageGetItem st' a k = storageGetItem st a k := by
  unfold storageGetItem areaContent
  rw [h]

theorem areaContent_congr (st st' : GState) (a : AreaId)
    (h : st'.areas = st.areas) : areaContent st' a = areaContent st a := by
  unfold areaContent
  rw [h]

@[simp] theorem storageGetItem_syncStep (a : AreaId) (ck k : String)
    (st : GState) (a2 : AreaId) (k2 : String) :
    storageGetItem (syncStep a ck k st) a2 k2 = storageGetItem st a2 k2 :=
  storageGetItem_congr st _ a2 k2 (areas_syncStep a ck k st)

@[simp] theorem storageGetItem_scanStep (ck k : String) (v : Val)
    (st : GState) (a2 : AreaId) (k2 : String) :
    storageGetItem (scanStep ck k v st) a2 k2 = storageGetItem st a2 k2 :=
  rfl

theorem mem_keys_alGet_isSome [inst : DecidableEq α] :
    ∀ (l : List (α × β)) (k : α) (v : β), (k, v) ∈ l →
      (alGet l k).isSome = true
  | [], _, _, h => absurd h (by simp)
  | (a, b) :: rest, k, v, h => by
    by_cases hak : a = k
    · subst hak
      simp [alGet]
    · rcases List.mem_cons.mp h with he | hr
      · exact absurd (congrArg Prod.fst he).symm hak
      · simp only [alGet, if_neg hak]
        exact mem_keys_alGet_isSome rest k v hr

theorem createEntry_has (ck : String) (st : GState)
    (hhas : alHas st.sharedCaches ck = true) : createEntry ck st = st := by
  unfold createEntry
  rw [if_pos hhas]

theorem alHas_createEntry (ck : String) (st : GState) :
    alHas (createEntry ck st).sharedCaches ck = true := by
  unfold createEntry
  by_cases hhas : alHas st.sharedCaches ck = true
  · rw [if_pos hhas]
    exact hhas
  · rw [if_neg (by simpa using hhas)]
    simp [alHas]

theorem managedOf_createEntry_fresh (ck : String) (st : GState)
    (hfresh : alHas st.sharedCaches ck = false) :
    managedOf (createEntry ck st) ck = [] := by
  unfold createEntry
  rw [if_neg (by simp [hfresh])]
  unfold managedOf
  simp

theorem scanStep_self_cache (ck k : String) (v : Val) (st : GState) :
    cacheOf (scanStep ck k v st) ck = alSet (cacheOf st ck) k v := by
  simp [scanStep]

theorem scanStep_self_managed (ck k : String) (v : Val) (st : GState) :
    managedOf (scanStep ck k v st) ck = ksAdd (managedOf st ck) k := by
  simp [scanStep]

theorem syncStep_noop (a : AreaId) (ck k : String) (st : GState)
    (h : storageGetItem st a k ≠ none) : syncStep a ck k st = st := by
  unfold syncStep
  rw [if_neg (by simpa [Option.isNone_iff_eq_none] using h)]

theorem syncLoop_noop (a : AreaId) (ck : String) :
    ∀ (ks : List String) (st : GState),
      (∀ k ∈ ks, storageGetItem st a k ≠ none) →
      syncLoop a ck ks st = st
  | [], _, _ => rfl
  | k :: ks, st, hall => by
    rw [show syncLoop a ck (k :: ks) st =
      syncLoop a ck ks (syncStep a ck k st) from rfl]
    rw [syncStep_noop a ck k st (hall k (List.mem_cons_self _ _))]
    exact syncLoop_noop a ck ks st
      (fun x hx => hall x (List.mem_cons_of_mem _ hx))

theorem syncLoop_managed (a : AreaId) (ck : String) :
    ∀ (ks : List String) (st : GState) (k : String),
      k ∈ managedOf (syncLoop a ck ks st) ck →
      k ∈ managedOf st ck ∧ (k ∈ ks → storageGetItem st a k ≠ none)
  | [], st, k, hk => ⟨hk, fun hmem => absurd hmem (by simp)⟩
  | k0 :: ks, st, k, hk => by
    rw [show syncLoop a ck (k0 :: ks) st =
      syncLoop a ck ks (syncStep a ck k0 st) from rfl] at hk
    obtain ⟨hm1, hp1⟩ := syncLoop_managed a ck ks (syncStep a ck k0 st) k hk
    by_cases hn : (storageGetItem st a k0).isNone = true
    · have hms : managedOf (syncStep a ck k0 st) ck =
          ksDelete (managedOf st ck) k0 := by
        unfold syncStep
        rw [if_pos hn]
        simp
      rw [hms] at hm1
      have hm2 := (mem_ksDelete _ _ _).mp hm1
      refine ⟨hm2.1, ?_⟩
      intro hmem
      rcases List.mem_cons.mp hmem with rfl | hr
      · exact absurd rfl hm2.2
      · have := hp1 hr
        rwa [storageGetItem_syncStep] at this
    · have hst : syncStep a ck k0 st = st := by
        unfold syncStep
        rw [if_neg hn]
      rw [hst] at hm1 hp1
      refine ⟨hm1, ?_⟩
      intro hmem
      rcases List.mem_cons.mp hmem with rfl | hr
      · intro he
        rw [he] at hn
        exact hn rfl
      · exact hp1 hr

theorem scanLoop_managed_mono (a : AreaId) (pfx ck : String) :
    ∀ (l : List (String × Raw)) (st st' : GState),
      scanLoop a pfx ck l st = .ok st' →
      ∀ k, k ∈ managedOf st ck → k ∈ managedOf st' ck
  | [], st, st', heq => by
    rw [Except.ok.inj heq]
    exact fun k hk => hk
  | (k0, r) :: rest, st, st', heq => by
    rw [show scanLoop a pfx ck ((k0, r) :: rest) st =
      (if strStartsWith k0 (pfx ++ ":") && !((managedOf st ck).contains k0)
       then
        match jsonParseAndFreeze (storageGetItem st a k0) with
        | .error e => .error e
        | .ok v => scanLoop a pfx ck rest (scanStep ck k0 v st)
       else scanLoop a pfx ck rest st) from rfl] at heq
    by_cases hcond : (strStartsWith k0 (pfx ++ ":") &&
        !((managedOf st ck).contains k0)) = true
    · rw [if_pos hcond] at heq
      cases hp : jsonParseAndFreeze (storageGetItem st a k0) with
      | error e =>
        rw [hp] at heq
        exact absurd heq (fun he => Except.noConfusion he)
      | ok v =>
        rw [hp] at heq
        intro k hk
        refine scanLoop_managed_mono a pfx ck rest _ st' heq k ?_
        rw [scanStep_self_managed]
        rw [mem_ksAdd]
        exact .inl hk
    · rw [if_neg hcond] at heq
      exact scanLoop_managed_mono a pfx ck rest st st' heq

theorem scanLoop_managed_src (a : AreaId) (pfx ck : String) :
    ∀ (l : List (String × Raw)) (st st' : GState),
      scanLoop a pfx ck l st = .ok st' →
      ∀ k, k ∈ managedOf st' ck →
        k ∈ managedOf st ck ∨ ∃ r, (k, r) ∈ l
  | [], st, st', heq => by
    rw [Except.ok.inj heq]
    exact fun k hk => .inl hk
  | (k0, r) :: rest, st, st', heq => by
    rw [show scanLoop a pfx ck ((k0, r) :: rest) st =
      (if strStartsWith k0 (pfx ++ ":") && !((managedOf st ck).contains k0)
       then
        match jsonParseAndFreeze (storageGetItem st a k0) with
        | .error e => .error e
        | .ok v => scanLoop a pfx ck rest (scanStep ck k0 v st)
       else scanLoop a pfx ck rest st) from rfl] at heq
    by_cases hcond : (strStartsWith k0 (pfx ++ ":") &&
        !((managedOf st ck).contains k0)) = true
    · rw [if_pos hcond] at heq
      cases hp : jsonParseAndFreeze (storageGetItem st a k0) with
      | error e =>
        rw [hp] at heq
        exact absurd heq (fun he => Except.noConfusion he)
      | ok v =>
        rw [hp] at heq
        intro k hk
        rcases scanLoop_managed_src a pfx ck rest _ st' heq k hk with hm | hr
        · rw [scanStep_self_managed, mem_ksAdd] at hm
          rcases hm with hm2 | rfl
          · exact .inl hm2
          · exact .inr ⟨r, List.mem_cons_self _ _⟩
        · obtain ⟨r2, hr2⟩ := hr
          exact .inr ⟨r2, List.mem_cons_of_mem _ hr2⟩
    · rw [if_neg hcond] at heq
      intro k hk
      rcases scanLoop_managed_src a pfx ck rest st st' heq k hk with hm | hr
      · exact .inl hm
      · obtain ⟨r2, hr2⟩ := hr
        exact .inr ⟨r2, List.mem_cons_of_mem _ hr2⟩

theorem scanLoop_covers (a : AreaId) (pfx ck : String) :
    ∀ (l : List (String × Raw)) (st st' : GState),
      scanLoop a pfx ck l st = .ok st' →
      ∀ k r, (k, r) ∈ l → strStartsWith k (pfx ++ ":") = true →
        k ∈ managedOf st' ck
  | [], _, _, _ => fun k r hk _ => absurd hk (by simp)
  | (k0, r0) :: rest, st, st', heq => by
    rw [show scanLoop a pfx ck ((k0, r0) :: rest) st =
      (if strStartsWith k0 (pfx ++ ":") && !((managedOf st ck).contains k0)
       then
        match jsonParseAndFreeze (storageGetItem st a k0) with
        | .error e => .error e
        | .ok v => scanLoop a pfx ck rest (scanStep ck k0 v st)
       else scanLoop a pfx ck rest st) from rfl] at heq
    by_cases hcond : (strStartsWith k0 (pfx ++ ":") &&
        !((managedOf st ck).contains k0)) = true
    · rw [if_pos hcond] at heq
      cases hp : jsonParseAndFreeze (storageGetItem st a k0) with
      | error e =>
        rw [hp] at heq
        exact absurd heq (fun he => Except.noConfusion he)
      | ok v =>
        rw [hp] at heq
        intro k r hkr hsw
        rcases List.mem_cons.mp hkr with he | hr
        · have hk0 : k = k0 := congrArg Prod.fst he
          subst hk0
          refine scanLoop_managed_mono a pfx ck rest _ st' heq k ?_
          rw [scanStep_self_managed]
          exact self_mem_ksAdd _ _
        · exact scanLoop_covers a pfx ck rest _ st' heq k r hr hsw
    · rw [if_neg hcond] at heq
      intro k r hkr hsw
      rcases List.mem_cons.mp hkr with he | hr
      · have hk0 : k = k0 := congrArg Prod.fst he
        subst hk0
        have hcont : (managedOf st ck).contains k = true := by
          by_cases hc : (managedOf st ck).contains k = true
          · exact hc
          · exfalso
            apply hcond
            have hm : k ∉ managedOf st ck := fun hm => hc (by simpa using hm)
            simp [hsw, hm]
        refine scanLoop_managed_mono a pfx ck rest st st' heq k ?_
        simpa using hcont
      · exact scanLoop_covers a pfx ck rest st st' heq k r hr hsw

theorem scanLoop_noop (a : AreaId) (pfx ck : String) :
    ∀ (l : List (String × Raw)) (st : GState),
      (∀ k r, (k, r) ∈ l → strStartsWith k (pfx ++ ":") = true →
        (managedOf st ck).contains k = true) →
      scanLoop a pfx ck l st = .ok st
  | [], _, _ => rfl
  | (k0, r0) :: rest, st, hall => by
    rw [show scanLoop a pfx ck ((k0, r0) :: rest) st =
      (if strStartsWith k0 (pfx ++ ":") && !((managedOf st ck).contains k0)
       then
        match jsonParseAndFreeze (storageGetItem st a k0) with
        | .error e => .error e
        | .ok v => scanLoop a pfx ck rest (scanStep ck k0 v st)
       else scanLoop a pfx ck rest st) from rfl]
    have hcond : (strStartsWith k0 (pfx ++ ":") &&
        !((managedOf st ck).contains k0)) = false := by
      by_cases hsw : strStartsWith k0 (pfx ++ ":") = true
      · have hc := hall k0 r0 (List.mem_cons_self _ _) hsw
        simp only [hsw, Bool.true_and, Bool.not_eq_false']
        exact hc
      · simp [Bool.eq_false_iff.mpr hsw]
    rw [if_neg (by rw [hcond]; simp)]
    exact scanLoop_noop a pfx ck rest st
      (fun k r hkr => hall k r (List.mem_cons_of_mem _ hkr))


/-- The scan pass parses every namespace-matching substrate key into the
cache: if the target key is among the scanned entries (or already
correctly cached), it ends up managed with the frozen parse of its raw
value in the cache. -/
theorem scan_target (a : AreaId) (pfx ck kf : String) (j : JSON) :
    ∀ (l : List (String × Raw)) (st st' : GState),
      scanLoop a pfx ck l st = .ok st' →
      storageGetItem st a kf = some (.wellFormed j) →
      strStartsWith kf (pfx ++ ":") = true →
      (kf ∈ managedOf st ck →
        alGet (cacheOf st ck) kf = some (freezeJSON j)) →
      ((∃ r, (kf, r) ∈ l) ∨ kf ∈ managedOf st ck) →
      kf ∈ managedOf st' ck ∧
        alGet (cacheOf st' ck) kf = some (freezeJSON j)
  | [], st, st', heq, _, _, hinv, hdisj => by
    have hst := Except.ok.inj heq
    subst hst
    rcases hdisj with ⟨r, hr⟩ | hm
    · exact absurd hr (by simp)
    · exact ⟨hm, hinv hm⟩
  | (k0, r0) :: rest, st, st', heq, hpre, hsw, hinv, hdisj => by
    rw [show scanLoop a pfx ck ((k0, r0) :: rest) st =
      (if strStartsWith k0 (pfx ++ ":") && !((managedOf st ck).contains k0)
       then
        match jsonParseAndFreeze (storageGetItem st a k0) with
        | .error e => .error e
        | .ok v => scanLoop a pfx ck rest (scanStep ck k0 v st)
       else scanLoop a pfx ck rest st) from rfl] at heq
    by_cases hcond : (strStartsWith k0 (pfx ++ ":") &&
        !((managedOf st ck).contains k0)) = true
    · rw [if_pos hcond] at heq
      cases hp : jsonParseAndFreeze (storageGetItem st a k0) with
      | error e =>
        rw [hp] at heq
        exact absurd heq (fun he => Except.noConfusion he)
      | ok v =>
        rw [hp] at heq
        by_cases hk : k0 = kf
        · subst hk
          have hv : v = freezeJSON j := by
            rw [hpre] at hp
            exact (Except.ok.inj hp).symm
          subst hv
          apply scan_target a pfx ck k0 j rest
            (scanStep ck k0 (freezeJSON j) st) st' heq
          · rw [storageGetItem_scanStep]
            exact hpre
          · exact hsw
          · intro _
            rw [scanStep_self_cache]
            simp
          · right
            rw [scanStep_self_managed]
            exact self_mem_ksAdd _ _
        · apply scan_target a pfx ck kf j rest (scanStep ck k0 v st) st'
            heq
          · rw [storageGetItem_scanStep]
            exact hpre
          · exact hsw
          · intro hm
            rw [scanStep_self_managed, mem_ksAdd] at hm
            rcases hm with hm2 | he
            · rw [scanStep_self_cache,
                alGet_alSet_ne _ _ _ _ (fun e => hk e.symm)]
              exact hinv hm2
            · exact absurd he.symm hk
          · rcases hdisj with ⟨r, hr⟩ | hm
            · rcases List.mem_cons.mp hr with he | hr2
              · exact absurd (congrArg Prod.fst he).symm hk
              · exact .inl ⟨r, hr2⟩
            · right
              rw [scanStep_self_managed, mem_ksAdd]
              exact .inl hm
    · rw [if_neg hcond] at heq
      apply scan_target a pfx ck kf j rest st st' heq hpre hsw hinv
      rcases hdisj with ⟨r, hr⟩ | hm
      · rcases List.mem_cons.mp hr with he | hr2
        · have hk0 : kf = k0 := congrArg Prod.fst he
          subst hk0
          right
          by_cases hc : (managedOf st ck).contains kf = true
          · simpa using hc
          · exfalso
            apply hcond
            have hm2 : kf ∉ managedOf st ck :=
              fun hm2 => hc (by simpa using hm2)
            simp [hsw, hm2]
        · exact .inl ⟨r, hr2⟩
      · exact .inr hm

theorem registerListener_mem (a : AreaId) (st : GState)
    (h : a ∈ st.listenerRegistered) : registerListener a st = st := by
  unfold registerListener
  rw [if_pos h]

theorem mem_registerListener (a : AreaId) (st : GState) :
    a ∈ (registerListener a st).listenerRegistered := by
  unfold registerListener
  by_cases h : a ∈ st.listenerRegistered
  · rw [if_pos h]
    exact h
  · rw [if_neg h]
    simp

theorem sharedCaches_registerListener (a : AreaId) (st : GState) :
    (registerListener a st).sharedCaches = st.sharedCaches := by
  unfold registerListener
  split <;> rfl

theorem has_syncStep (a : AreaId) (ck k : String) (st : GState)
    (h : alHas st.sharedCaches ck = true) :
    alHas (syncStep a ck k st).sharedCaches ck = true := by
  unfold syncStep
  split
  · exact alHas_alSet_self _ _ _
  · exact h

theorem has_syncLoop (a : AreaId) (ck : String) :
    ∀ (ks : List String) (st : GState),
      alHas st.sharedCaches ck = true →
      alHas (syncLoop a ck ks st).sharedCaches ck = true
  | [], _, h => h
  | k :: ks, st, h =>
    has_syncLoop a ck ks (syncStep a ck k st) (has_syncStep a ck k st h)

theorem has_scanLoop (a : AreaId) (pfx ck : String) :
    ∀ (l : List (String × Raw)) (st st' : GState),
      scanLoop a pfx ck l st = .ok st' →
      alHas st.sharedCaches ck = true →
      alHas st'.sharedCaches ck = true
  | [], st, st', heq, h => by
    rw [← Except.ok.inj heq]
    exact h
  | (k0, r0) :: rest, st, st', heq, h => by
    rw [show scanLoop a pfx ck ((k0, r0) :: rest) st =
      (if strStartsWith k0 (pfx ++ ":") && !((managedOf st ck).contains k0)
       then
        match jsonParseAndFreeze (storageGetItem st a k0) with
        | .error e => .error e
        | .ok v => scanLoop a pfx ck rest (scanStep ck k0 v st)
       else scanLoop a pfx ck rest st) from rfl] at heq
    by_cases hcond : (strStartsWith k0 (pfx ++ ":") &&
        !((managedOf st ck).contains k0)) = true
    · rw [if_pos hcond] at heq
      cases hp : jsonParseAndFreeze (storageGetItem st a k0) with
      | error e =>
        rw [hp] at heq
        exact absurd heq (fun he => Except.noConfusion he)
      | ok v =>
        rw [hp] at heq
        exact has_scanLoop a pfx ck rest _ st' heq (alHas_alSet_self _ _ _)
    · rw [if_neg hcond] at heq
      exact has_scanLoop a pfx ck rest st st' heq h

/-- What one construction establishes: the registry entry exists, is
reconciled with the substrate, and the listener is registered. -/
theorem construct_reconciled (a : AreaId) (pfxN : String) (st st' : GState)
    (hc : construct a (some pfxN) st = .ok st') :
    reconciled st' a pfxN (getCacheKey a pfxN) ∧
    a ∈ st'.listenerRegistered ∧
    alHas st'.sharedCaches (getCacheKey a pfxN) = true := by
  rw [construct_eq] at hc
  simp only [Option.getD_some] at hc
  cases hScan : scanLoop a pfxN (getCacheKey a pfxN)
      (areaContent (syncLoop a (getCacheKey a pfxN)
        (managedOf (createEntry (getCacheKey a pfxN) st)
          (getCacheKey a pfxN))
        (createEntry (getCacheKey a pfxN) st)) a)
      (syncLoop a (getCacheKey a pfxN)
        (managedOf (createEntry (getCacheKey a pfxN) st)
          (getCacheKey a pfxN))
        (createEntry (getCacheKey a pfxN) st)) with
  | error e =>
    rw [hScan] at hc
    exact absurd hc (fun he => Except.noConfusion he)
  | ok st3 =>
    rw [hScan] at hc
    have hst' : st' = registerListener a st3 := (Except.ok.inj hc).symm
    subst hst'
    have hArea2 : (syncLoop a (getCacheKey a pfxN)
        (managedOf (createEntry (getCacheKey a pfxN) st)
          (getCacheKey a pfxN))
        (createEntry (getCacheKey a pfxN) st)).areas = st.areas :=
      (areas_syncLoop a _ _ _).trans (areas_createEntry _ _)
    have hArea3 : st3.areas = st.areas :=
      (areas_scanLoop a pfxN _ _ _ st3 hScan).trans hArea2
    have hAreaR : (registerListener a st3).areas = st.areas :=
      (areas_registerListener a st3).trans hArea3
    refine ⟨⟨?_, ?_⟩, mem_registerListener a st3, ?_⟩
    · intro k hk
      rw [managedOf_registerListener] at hk
      rw [storageGetItem_congr _ _ _ _
        ((areas_registerListener a st3).trans
          ((areas_scanLoop a pfxN _ _ _ st3 hScan)))]
      rcases scanLoop_managed_src a pfxN (getCacheKey a pfxN) _ _ st3
          hScan k hk with hm2 | ⟨r, hr⟩
      · obtain ⟨hm1, hp⟩ := syncLoop_managed a (getCacheKey a pfxN)
          (managedOf (createEntry (getCacheKey a pfxN) st)
            (getCacheKey a pfxN))
          (createEntry (getCacheKey a pfxN) st) k hm2
        have hne := hp hm1
        rwa [storageGetItem_congr _ _ _ _ (areas_createEntry _ _),
          ← storageGetItem_congr _ _ a k hArea2] at hne
      · have hs := mem_keys_alGet_isSome _ _ _ hr
        exact Option.isSome_iff_ne_none.mp hs
    · intro k r hkr hsw
      rw [managedOf_registerListener]
      rw [areaContent_congr _ _ _
        ((areas_registerListener a st3).trans
          (areas_scanLoop a pfxN _ _ _ st3 hScan))] at hkr
      exact scanLoop_covers a pfxN (getCacheKey a pfxN) _ _ st3 hScan
        k r hkr hsw
    · rw [show (registerListener a st3).sharedCaches = st3.sharedCaches
        from sharedCaches_registerListener a st3]
      exact has_scanLoop a pfxN (getCacheKey a pfxN) _ _ st3 hScan
        (has_syncLoop a (getCacheKey a pfxN) _ _
          (alHas_createEntry (getCacheKey a pfxN) st))

/-- A construction that finds its entry present, reconciled, and its
listener registered changes nothing at all. -/
theorem construct_noop (a : AreaId) (pfxN : String) (st : GState)
    (hhas : alHas st.sharedCaches (getCacheKey a pfxN) = true)
    (hrec : reconciled st a pfxN (getCacheKey a pfxN))
    (hlis : a ∈ st.listenerRegistered) :
    construct a (some pfxN) st = .ok st := by
  rw [construct_eq]
  simp only [Option.getD_some]
  rw [createEntry_has _ _ hhas]
  rw [syncLoop_noop a (getCacheKey a pfxN) (managedOf st (getCacheKey a
    pfxN)) st (fun k hk => hrec.1 k hk)]
  rw [scanLoop_noop a pfxN (getCacheKey a pfxN) (areaContent st a) st
    (fun k r hkr hsw => by simpa using hrec.2 k r hkr hsw)]
  rw [show (match (Except.ok st : Except JsError GState) with
    | Except.error e => Except.error e
    | Except.ok st3 => Except.ok (registerListener a st3)) =
    Except.ok (registerListener a st) from rfl]
  rw [registerListener_mem a st hlis]

/-- C1: after a handle for the pair `(A, N)` has been constructed, the one
registry entry for the pair exists; constructing any further handle for
the same pair is a complete no-op on the state (the previously cached
state is neither replaced nor discarded); and since every handle for the
pair addresses the entry through the same cache key, a `setItem` through
one handle is served synchronously from the shared cache by a `getItem`
through the other, with no storage event dispatched in between. -/
theorem c1_shared_entry (a : AreaId) (pfxN : String) (st st1 : GState)
    (h1 : construct a (some pfxN) st = .ok st1) :
    alHas st1.sharedCaches (cacheKeyOf ⟨a, pfxN⟩) = true ∧
    construct a (some pfxN) st1 = .ok st1 ∧
    (∀ k v st2, v ≠ .vNull → v ≠ .vUndefined →
      setItem ⟨a, pfxN⟩ k v st1 = .ok st2 →
      getItem ⟨a, pfxN⟩ k st2 = .ok (frozenCopyOf v, st2)) := by
  obtain ⟨hrec, hlis, hhas⟩ := construct_reconciled a pfxN st st1 h1
  refine ⟨hhas, construct_noop a pfxN st1 hhas hrec hlis, ?_⟩
  intro k v st2 hv hu hs
  exact (setItem_effects ⟨a, pfxN⟩ k v st1 st2 hv hu hs).2.2.2

theorem c1_shared_entry_witness :
    alHas cState1.sharedCaches (cacheKeyOf cHandle) = true ∧
    construct localStorageId (some "p") cState1 = .ok cState1 ∧
    getItem cHandle "a" cState2 = .ok (frozenCopyOf (.vNum 1), cState2) := by
  have H := c1_shared_entry localStorageId "p" stEmpty cState1 rfl
  exact ⟨H.1, H.2.1, H.2.2 "a" (.vNum 1) cState2
    (fun e => Val.noConfusion e) (fun e => Val.noConfusion e) rfl⟩

/-- C6: a substrate key `${N}:lk` holding a valid serialized value before
the first handle for `(A, N)` exists is decoded into the shared cache by
the construction itself, so `getItem(lk)` answers with the decoded value
immediately, with no explicit load call. -/
theorem c6_construction_reconciliation (a : AreaId) (pfxN lk : String)
    (j : JSON) (st st' : GState)
    (hfresh : alHas st.sharedCaches (getCacheKey a pfxN) = false)
    (hpre : storageGetItem st a (buildKey pfxN lk) = some (.wellFormed j))
    (hc : construct a (some pfxN) st = .ok st') :
    getItem ⟨a, pfxN⟩ lk st' = .ok (freezeJSON j, st') := by
  rw [construct_eq] at hc
  simp only [Option.getD_some] at hc
  rw [managedOf_createEntry_fresh (getCacheKey a pfxN) st hfresh] at hc
  rw [show syncLoop a (getCacheKey a pfxN) []
    (createEntry (getCacheKey a pfxN) st) =
    createEntry (getCacheKey a pfxN) st from rfl] at hc
  cases hScan : scanLoop a pfxN (getCacheKey a pfxN)
      (areaContent (createEntry (getCacheKey a pfxN) st) a)
      (createEntry (getCacheKey a pfxN) st) with
  | error e =>
    rw [hScan] at hc
    exact absurd hc (fun he => Except.noConfusion he)
  | ok st3 =>
    rw [hScan] at hc
    have hst' : st' = registerListener a st3 := (Except.ok.inj hc).symm
    have hpre1 : storageGetItem (createEntry (getCacheKey a pfxN) st) a
        (buildKey pfxN lk) = some (.wellFormed j) := by
      rw [storageGetItem_congr _ _ _ _ (areas_createEntry _ _)]
      exact hpre
    obtain ⟨hmf, hcf⟩ := scan_target a pfxN (getCacheKey a pfxN)
      (buildKey pfxN lk) j
      (areaContent (createEntry (getCacheKey a pfxN) st) a)
      (createEntry (getCacheKey a pfxN) st) st3 hScan hpre1
      (strStartsWith_append (pfxN ++ ":") lk)
      (by
        intro hx
        rw [managedOf_createEntry_fresh (getCacheKey a pfxN) st hfresh]
          at hx
        exact absurd hx (by simp))
      (.inl ⟨.wellFormed j, alGet_mem _ _ _ hpre1⟩)
    subst hst'
    apply getItem_cache_hit
    show alGet (cacheOf (registerListener a st3) (getCacheKey a pfxN))
      (buildKey pfxN lk) = some (freezeJSON j)
    rw [cacheOf_registerListener]
    exact hcf

theorem c6_construction_reconciliation_witness :
    alHas stPre.sharedCaches (getCacheKey localStorageId "p") = false ∧
    storageGetItem stPre localStorageId (buildKey "p" "foo") =
      some (.wellFormed (.str "bar")) ∧
    getItem ⟨localStorageId, "p"⟩ "foo" cState6 =
      .ok (freezeJSON (.str "bar"), cState6) :=
  ⟨rfl, rfl,
    c6_construction_reconciliation localStorageId "p" "foo" (.str "bar")
      stPre cState6 rfl rfl rfl⟩

end TrackedStore
